import Mathlib

/-!
Verification development for the cira block runtime execution core
(manifest model, block loader, dataflow graph builder, topological
scheduler, metrics aggregator).  The C++ sources are shallowly embedded:
`std::map` becomes a key-ordered association list, `BlockValue`
(a `std::variant`) becomes an inductive tagged value with `float` and
`double` modelled as exact rationals, `IBlock*` pointers become abstract
instance identifiers (`Nat`), and the plug-in boundary (dynamic library
loading, block behaviour) is modelled by explicit oracles.
-/

namespace CiraBlockRuntime

/-- Association map keyed by strings, mirroring `std::map<std::string, A>`
lookup/overwrite semantics (iteration order of these maps is never
observable in the embedded code paths). -/
def mapSet {α : Type} : List (String × α) → String → α → List (String × α)
  | [], k, v => [(k, v)]
  | (k', v') :: rest, k, v =>
    if k = k' then (k, v) :: rest else (k', v') :: mapSet rest k v

/-- Lookup in a string-keyed association map. -/
def mapFind {α : Type} : List (String × α) → String → Option α
  | [], _ => none
  | (k', v') :: rest, k => if k = k' then some v' else mapFind rest k

/-- Association map keyed by `int`, mirroring `std::map<int, A>`: insertion
keeps the list sorted by key so that iteration order matches the C++ map. -/
def imapSet {α : Type} : List (Int × α) → Int → α → List (Int × α)
  | [], k, v => [(k, v)]
  | (k', v') :: rest, k, v =>
    if k < k' then (k, v) :: (k', v') :: rest
    else if k = k' then (k, v) :: rest
    else (k', v') :: imapSet rest k v

/-- Lookup in an int-keyed association map. -/
def imapFind {α : Type} : List (Int × α) → Int → Option α
  | [], _ => none
  | (k', v') :: rest, k => if k = k' then some v' else imapFind rest k

theorem mapFind_mapSet {α : Type} (m : List (String × α)) (k j : String) (v : α) :
    mapFind (mapSet m k v) j = if j = k then some v else mapFind m j := by
  induction m with
  | nil =>
    by_cases h : j = k <;> simp [mapSet, mapFind, h]
  | cons p rest ih =>
    obtain ⟨k', v'⟩ := p
    by_cases hk : k = k'
    · subst hk
      by_cases hj : j = k <;> simp [mapSet, mapFind, hj]
    · by_cases hj : j = k
      · subst hj
        simp [mapSet, hk, mapFind, ih, if_neg hk]
      · by_cases hj' : j = k' <;> simp [mapSet, hk, mapFind, hj, hj', ih, Ne.symm hk]

theorem imapFind_imapSet {α : Type} (m : List (Int × α)) (k j : Int) (v : α) :
    imapFind (imapSet m k v) j = if j = k then some v else imapFind m j := by
  induction m with
  | nil =>
    by_cases h : j = k <;> simp [imapSet, imapFind, h]
  | cons p rest ih =>
    obtain ⟨k', v'⟩ := p
    by_cases hlt : k < k'
    · by_cases hj : j = k <;> by_cases hj' : j = k' <;>
        simp [imapSet, hlt, imapFind, hj, hj']
    · by_cases hk : k = k'
      · subst hk
        by_cases hj : j = k <;> simp [imapSet, hlt, imapFind, hj]
      · by_cases hj : j = k
        · subst hj
          have : ¬ j = k' := hk
          simp [imapSet, hlt, hk, imapFind, this, ih]
        · by_cases hj' : j = k' <;> simp [imapSet, hlt, hk, imapFind, hj, hj', ih, Ne.symm hk]

/-- Tag discriminant of a `BlockValue`, in the order of the
`std::variant<float, int, bool, std::string, std::vector<float>>`
alternatives in `block_interface.hpp`. -/
inductive ValueTag
  | float
  | int
  | bool
  | str
  | floatArray
deriving DecidableEq

/-- `BlockValue = std::variant<float, int, bool, std::string,
std::vector<float>>`; `float` is modelled as an exact rational. -/
inductive BlockValue
  | float (x : Rat)
  | int (n : Int)
  | bool (b : Bool)
  | str (s : String)
  | floatArray (xs : List Rat)
deriving DecidableEq

/-- Runtime tag of a value (the variant index). -/
def BlockValue.tag : BlockValue → ValueTag
  | .float _ => .float
  | .int _ => .int
  | .bool _ => .bool
  | .str _ => .str
  | .floatArray _ => .floatArray

/-- `Pin` from `block_interface.hpp`: name, declared type string
("float", "int", "bool", "string", "array", "vector3"), direction. -/
structure Pin where
  name : String
  type : String
  is_input : Bool
deriving DecidableEq

/-- `Connection` from `manifest_parser.hpp`. -/
structure Connection where
  from_node_id : Int
  from_pin : String
  to_node_id : Int
  to_pin : String
deriving DecidableEq

/-- `BlockReference` from `manifest_parser.hpp`. -/
structure BlockReference where
  id : String
  version : String
  type : String
  dependencies : List String
deriving DecidableEq

/-- `NodeInstance` from `manifest_parser.hpp`.  The C++ struct holds a
plain `struct Position \x7b float x; float y; \x7d` member with no
initializer: a default-constructed `NodeInstance` leaves both floats
indeterminate.  The embedding records whether the parser ever assigned the
coordinates: `none` means they were left at their indeterminate
default-initialized state. -/
structure NodeInstance where
  id : Int
  type : String
  config : List (String × String)
  position : Option (Rat × Rat)
deriving DecidableEq

/-- `BlockManifest` from `manifest_parser.hpp`. -/
structure BlockManifest where
  format_version : String
  pipeline_name : String
  target_platform : String
  blocks : List BlockReference
  nodes : List NodeInstance
  connections : List Connection
deriving DecidableEq

/-- Whether `pat` matches at the head of `hay` (character lists). -/
def charsStartWith : List Char → List Char → Bool
  | [], _ => true
  | _ :: _, [] => false
  | p :: ps, h :: hs => p = h && charsStartWith ps hs

/-- Whether `pat` occurs somewhere in `hay` (character lists). -/
def charsContain (pat : List Char) : List Char → Bool
  | [] => pat.isEmpty
  | h :: hs => charsStartWith pat (h :: hs) || charsContain pat hs

/-- `hay.find(pat) != std::string::npos`: substring containment. -/
def strContains (hay pat : String) : Bool :=
  charsContain pat.data hay.data

/-- The `get_block_id` lambda in `BlockExecutor::BuildFromManifest`:
first block of the manifest whose id occurs inside the node type, else the
hard-coded rewrite table, else the empty string (node is then skipped). -/
def getBlockId (blocks : List BlockReference) (node_type : String) : String :=
  match blocks.find? (fun b => strContains node_type b.id) with
  | some b => b.id
  | none =>
    if strContains node_type "adxl345" then "adxl345-sensor"
    else if strContains node_type "bme280" then "bme280-sensor"
    else if strContains node_type "sliding_window" then "sliding-window"
    else if strContains node_type "lowpass" || strContains node_type "low_pass" then
      "low-pass-filter"
    else if strContains node_type "channel_merge" then "channel-merge"
    else if strContains node_type "timesnet" then "timesnet"
    else if strContains node_type "gpio" && strContains node_type "output" then "gpio-output"
    else if strContains node_type "oled" then "oled-display"
    else if strContains node_type "mqtt" then "mqtt-publisher"
    else ""

/-- Version lookup in `BuildFromManifest`: first manifest block with the
given id, defaulting to "1.0.0". -/
def findVersion (blocks : List BlockReference) (bid : String) : String :=
  match blocks.find? (fun b => b.id = bid) with
  | some b => b.version
  | none => "1.0.0"

/-- `ExecutionNode` from `block_executor.hpp`; the `IBlock*` pointer is an
abstract instance identifier (`none` = null). -/
structure ExecutionNode where
  node_id : Int
  node_type : String
  block : Option Nat
  config : List (String × String)
  input_values : List (String × BlockValue)
  output_values : List (String × BlockValue)
deriving DecidableEq

/-- Executor state: the private members of `BlockExecutor`
(`avg_execution_time_ms` is updated from a wall clock; the tick duration
is supplied as an oracle parameter where needed). -/
structure ExecutorState where
  nodes : List (Int × ExecutionNode)
  connections : List Connection
  execution_order : List Int
  total_executions : Nat
  total_errors : Nat
  avg_execution_time_ms : Rat
  error : String
deriving DecidableEq

/-- Adjacency list content `adj_list[u]` built in
`BlockExecutor::BuildExecutionOrder`: targets of the connections leaving
`u`, in connection-list order. -/
def adjOf (conns : List Connection) (u : Int) : List Int :=
  (conns.filter (fun c => c.from_node_id == u)).map (fun c => c.to_node_id)

/-- Initial `in_degree[v]`: number of connections entering `v`. -/
def inDegreeOf (conns : List Connection) (v : Int) : Int :=
  ((conns.filter (fun c => c.to_node_id == v)).length : Int)

/-- Sorted-set insertion of a key, mirroring `std::map` key insertion
(`in_degree[k]` creating an entry). -/
def iInsert : List Int → Int → List Int
  | [], k => [k]
  | x :: xs, k =>
    if k < x then k :: x :: xs
    else if k = x then x :: xs
    else x :: iInsert xs k

/-- Key set of the `in_degree` map: the node ids of the built graph
(already sorted, they come from `std::map<int, ExecutionNode>`) plus every
`to_node_id` touched by `in_degree[conn.to_node_id]++`. -/
def buildKeys (nodeKeys : List Int) (conns : List Connection) : List Int :=
  conns.foldl (fun ks c => iInsert ks c.to_node_id) nodeKeys

/-- Inner loop of `BuildExecutionOrder`: for each neighbor of the popped
node, decrement its in-degree and push it if the degree reaches zero.
The stack is the `std::vector` queue with its back at the list head. -/
def processNeighbors : List Int → (Int → Int) → List Int → (Int → Int) × List Int
  | [], deg, st => (deg, st)
  | n :: rest, deg, st =>
    let d := deg n - 1
    processNeighbors rest (fun v => if v = n then d else deg v)
      (if d = 0 then n :: st else st)

/-- The while-loop of `BuildExecutionOrder`: pop the back of the queue,
append it to the order, process its neighbors.  A fuel argument bounds
the recursion; `kahnLoop_stack_empty` below shows the fuel used by
`kahnSort` never runs out. -/
def kahnLoop (adj : Int → List Int) : Nat → (Int → Int) → List Int → List Int →
    List Int × List Int
  | 0, _, st, order => (order, st)
  | _ + 1, _, [], order => (order, [])
  | fuel + 1, deg, cur :: rest, order =>
    let p := processNeighbors (adj cur) deg rest
    kahnLoop adj fuel p.1 p.2 (order ++ [cur])

/-- `BlockExecutor::BuildExecutionOrder` on the key set of the node map:
returns the computed order and whether it covers all nodes (the C++
returns false with "Cycle detected in execution graph" otherwise). -/
def kahnSort (nodeKeys : List Int) (conns : List Connection) : List Int × Bool :=
  let keys := buildKeys nodeKeys conns
  let deg := inDegreeOf conns
  let st := (keys.filter (fun k => deg k == 0)).reverse
  let r := kahnLoop (adjOf conns) (keys.length + 1) deg st []
  (r.1, r.1.length == nodeKeys.length)

/-- `BuildExecutionOrder` acting on the executor node map. -/
def buildExecutionOrder (nodes : List (Int × ExecutionNode)) (conns : List Connection) :
    List Int × Bool :=
  kahnSort (nodes.map Prod.fst) conns

/-- The node-loading loop of `BuildFromManifest`: resolve the node type to
a block id (skip with an error message if unknown), load the block through
the loader oracle (skip with a warning if it fails), insert an
`ExecutionNode` into the node map.  `loader id version` returns the
`IBlock*` produced by `BlockLoader::LoadBlock` (`none` = null). -/
def buildNodes (manifest : BlockManifest) (loader : String → String → Option Nat) :
    List (Int × ExecutionNode) × String :=
  manifest.nodes.foldl
    (fun acc node =>
      let bid := getBlockId manifest.blocks node.type
      if bid = "" then (acc.1, "Unknown node type: " ++ node.type)
      else
        match loader bid (findVersion manifest.blocks bid) with
        | none => acc
        | some inst =>
          (imapSet acc.1 node.id
            { node_id := node.id, node_type := node.type, block := some inst,
              config := node.config, input_values := [], output_values := [] },
            acc.2))
    ([], "")

/-- `BlockExecutor::BuildFromManifest`: build the node map, copy the
connections verbatim, compute the execution order; fails only when the
order does not cover all nodes. -/
def buildFromManifest (manifest : BlockManifest) (loader : String → String → Option Nat) :
    ExecutorState × Bool :=
  let built := buildNodes manifest loader
  let conns := manifest.connections
  let r := buildExecutionOrder built.1 conns
  ({ nodes := built.1, connections := conns, execution_order := r.1,
     total_executions := 0, total_errors := 0, avg_execution_time_ms := 0,
     error := if r.2 then built.2 else "Cycle detected in execution graph" },
   r.2)

/-- One connection of `BlockExecutor::TransferData`: if both endpoint
nodes exist, both blocks are non-null and the upstream output snapshot has
a value on the source pin, copy that value into the downstream input
snapshot (the same value is passed to `SetInput` on the downstream
block).  No type coercion is applied anywhere on this path. -/
def transferStep (nodes : List (Int × ExecutionNode)) (c : Connection) :
    List (Int × ExecutionNode) :=
  match imapFind nodes c.from_node_id, imapFind nodes c.to_node_id with
  | some fromNode, some toNode =>
    match fromNode.block, toNode.block with
    | some _, some _ =>
      match mapFind fromNode.output_values c.from_pin with
      | some v =>
        imapSet nodes c.to_node_id
          { toNode with input_values := mapSet toNode.input_values c.to_pin v }
      | none => nodes
    | _, _ => nodes
  | _, _ => nodes

/-- `BlockExecutor::TransferData`: iterate over every stored connection. -/
def transferData (conns : List Connection) (nodes : List (Int × ExecutionNode)) :
    List (Int × ExecutionNode) :=
  conns.foldl transferStep nodes

/-- Observable behaviour of a block instance during one tick, the oracle
standing for the `IBlock` virtual calls: the result of `Execute`, the
declared pins, and the outputs read by `GetOutput` after a successful
`Execute`. -/
structure BlockBehavior where
  execOk : Bool
  inputPins : List Pin
  outputPins : List Pin
  getOutput : String → BlockValue

/-- The collect phase of `BlockExecutor::Execute`: for every declared
output pin, store `GetOutput(pin.name)` into the output snapshot. -/
def collectOutputs (behavior : Nat → BlockBehavior) (inst : Nat) (node : ExecutionNode) :
    ExecutionNode :=
  let out := (behavior inst).outputPins.foldl
    (fun out pin => mapSet out pin.name ((behavior inst).getOutput pin.name))
    node.output_values
  { node with output_values := out }

/-- One iteration of the per-tick loop in `BlockExecutor::Execute`:
skip ids absent from the node map or with a null block, call
`TransferData`, call `Execute` (recording the node id), and on success
collect the outputs; on failure increment the error counter and leave the
output snapshot untouched.  The accumulator is
(node map, error counter, list of nodes whose `Execute` was called). -/
def tickStep (behavior : Nat → BlockBehavior) (conns : List Connection)
    (acc : List (Int × ExecutionNode) × Nat × List Int) (node_id : Int) :
    List (Int × ExecutionNode) × Nat × List Int :=
  match imapFind acc.1 node_id with
  | none => acc
  | some node =>
    match node.block with
    | none => acc
    | some inst =>
      let nodes1 := transferData conns acc.1
      let node1 := (imapFind nodes1 node_id).getD node
      if (behavior inst).execOk then
        (imapSet nodes1 node_id (collectOutputs behavior inst node1),
         acc.2.1, acc.2.2 ++ [node_id])
      else
        (nodes1, acc.2.1 + 1, acc.2.2 ++ [node_id])

/-- `BlockExecutor::Execute`: run the per-tick loop over the execution
order, then update the stats.  `durationMs` is the wall-clock tick
duration oracle.  Returns the new state, the (always true) return value,
and the list of executed node ids. -/
def executeTick (behavior : Nat → BlockBehavior) (durationMs : Rat) (st : ExecutorState) :
    ExecutorState × Bool × List Int :=
  let r := st.execution_order.foldl (tickStep behavior st.connections)
    (st.nodes, st.total_errors, [])
  let avg := (st.avg_execution_time_ms * (st.total_executions : Rat) + durationMs) /
    ((st.total_executions : Rat) + 1)
  ({ st with
      nodes := r.1, total_errors := r.2.1,
      total_executions := st.total_executions + 1,
      avg_execution_time_ms := avg },
   true, r.2.2)

/-- `BlockExecutor::Shutdown`: call `Shutdown()` on the block of every
node in the map (in key order), then clear nodes, connections and order.
Returns the new state and the list of instances on which `Shutdown()` was
invoked, one entry per call. -/
def shutdownExecutor (st : ExecutorState) : ExecutorState × List Nat :=
  ({ st with nodes := [], connections := [], execution_order := [] },
   st.nodes.foldl
     (fun evs p => match p.2.block with | some inst => evs ++ [inst] | none => evs) [])

/-- Outcome oracle for one dynamic library: whether `dlopen` succeeds,
whether the two symbols resolve, the library handle, and the result of
`CreateBlock` (`none` = null). -/
structure LibraryBehavior where
  openOk : Bool
  createSym : Bool
  destroySym : Bool
  handle : Nat
  created : Option Nat

/-- Observable loader events: `dlopen`, `CreateBlock`, `dlclose`. -/
inductive LoadEvent
  | libOpen (path : String)
  | createCall (path : String)
  | libClose (path : String)
deriving DecidableEq

/-- A cache entry of `BlockLoader` (`LoadedBlock` in `block_loader.hpp`);
function pointers are implied by the path. -/
structure LoadedBlock where
  block_id : String
  version : String
  library_handle : Nat
  inst : Nat
deriving DecidableEq

/-- The private state of `BlockLoader`. -/
structure LoaderState where
  block_library_path : String
  loaded_blocks : List (String × LoadedBlock)
deriving DecidableEq

/-- `BlockLoader::GetBlockKey`. -/
def getBlockKey (bid ver : String) : String := bid ++ "-" ++ ver

/-- `BlockLoader::GetBlockPath` (unix branch). -/
def getBlockPath (st : LoaderState) (bid ver : String) : String :=
  st.block_library_path ++ bid ++ "-v" ++ ver ++ ".so"

/-- `BlockLoader::LoadBlock`: return the cached instance if the key is
present; otherwise open the library, resolve `CreateBlock` and
`DestroyBlock`, call `CreateBlock`, and cache the result.  Any failure
closes the library and returns null without touching the cache. -/
def loadBlock (env : String → LibraryBehavior) (st : LoaderState) (bid ver : String) :
    Option Nat × LoaderState × List LoadEvent :=
  let key := getBlockKey bid ver
  match mapFind st.loaded_blocks key with
  | some lb => (some lb.inst, st, [])
  | none =>
    let path := getBlockPath st bid ver
    let lib := env path
    if !lib.openOk then (none, st, [.libOpen path])
    else if !lib.createSym then (none, st, [.libOpen path, .libClose path])
    else if !lib.destroySym then (none, st, [.libOpen path, .libClose path])
    else
      match lib.created with
      | none => (none, st, [.libOpen path, .createCall path, .libClose path])
      | some b =>
        let cache := mapSet st.loaded_blocks key
          { block_id := bid, version := ver, library_handle := lib.handle, inst := b }
        (some b, { st with loaded_blocks := cache }, [.libOpen path, .createCall path])

/-- `n` successive `LoadBlock` calls for the same (id, version): final
state, concatenated event log, and the list of returned pointers. -/
def loadBlockN (env : String → LibraryBehavior) (bid ver : String) :
    Nat → LoaderState → LoaderState × List LoadEvent × List (Option Nat)
  | 0, st => (st, [], [])
  | n + 1, st =>
    let r := loadBlock env st bid ver
    let rest := loadBlockN env bid ver n r.2.1
    (rest.1, r.2.2 ++ rest.2.1, r.1 :: rest.2.2)

/-- Whether an event is a `dlopen` call. -/
def LoadEvent.isOpen : LoadEvent → Bool
  | .libOpen _ => true
  | _ => false

/-- Whether an event is a `CreateBlock` call. -/
def LoadEvent.isCreate : LoadEvent → Bool
  | .createCall _ => true
  | _ => false

/-- `BlockMetrics` from `metrics_collector.hpp`, with its in-class member
initializers; `double` fields are exact rationals and the wall-clock
stamp is supplied as an oracle argument. -/
structure BlockMetrics where
  block_id : String := ""
  execution_count : Nat := 0
  avg_latency_ms : Rat := 0
  total_latency_ms : Rat := 0
  last_output_value : String := ""
  last_output_type : String := ""
  last_execution_time : Nat := 0
deriving DecidableEq

/-- The per-block map of `MetricsCollector` (system metrics and the
steady-clock start time are outside the embedded claims). -/
structure MetricsState where
  block_metrics : List (String × BlockMetrics) := []
deriving DecidableEq

/-- `MetricsCollector::RecordBlockExecution`: `operator[]`
default-constructs a missing record, then the counters, totals, average
and wall-clock stamp are updated. -/
def recordBlockExecution (st : MetricsState) (bid : String) (latency_ms : Rat) (now : Nat) :
    MetricsState :=
  let m := (mapFind st.block_metrics bid).getD {}
  let cnt := m.execution_count + 1
  let total := m.total_latency_ms + latency_ms
  { block_metrics := mapSet st.block_metrics bid
      { m with block_id := bid, execution_count := cnt, total_latency_ms := total,
               avg_latency_ms := total / (cnt : Rat), last_execution_time := now } }

/-- `MetricsCollector::RecordBlockOutput` (the pin name parameter is
unused by the implementation). -/
def recordBlockOutput (st : MetricsState) (bid _pin value ty : String) : MetricsState :=
  let m := (mapFind st.block_metrics bid).getD {}
  { block_metrics := mapSet st.block_metrics bid
      { m with block_id := bid, last_output_value := value, last_output_type := ty } }

/-- `MetricsCollector::GetBlockMetrics`: a `find`-based read; a missing id
yields a default-constructed record carrying the queried id.  The state is
returned to make explicit that the read does not insert anything. -/
def getBlockMetrics (st : MetricsState) (bid : String) : BlockMetrics × MetricsState :=
  match mapFind st.block_metrics bid with
  | some m => (m, st)
  | none => ({ block_id := bid }, st)

/-- Erase one key from a string-keyed association map
(`std::map::erase`). -/
def mapErase {α : Type} : List (String × α) → String → List (String × α)
  | [], _ => []
  | (k', v') :: rest, k => if k = k' then rest else (k', v') :: mapErase rest k

/-- `MetricsCollector::ResetBlock`. -/
def resetBlock (st : MetricsState) (bid : String) : MetricsState :=
  { block_metrics := mapErase st.block_metrics bid }

/-- The mutating operations of `MetricsCollector`
(`Reset` clears the whole block map). -/
inductive MetricsOp
  | recordExec (bid : String) (latency_ms : Rat) (now : Nat)
  | recordOut (bid pin value ty : String)
  | reset
  | resetOne (bid : String)

/-- Apply one metrics operation. -/
def applyMetricsOp (st : MetricsState) : MetricsOp → MetricsState
  | .recordExec bid lat now => recordBlockExecution st bid lat now
  | .recordOut bid pin value ty => recordBlockOutput st bid pin value ty
  | .reset => {}
  | .resetOne bid => resetBlock st bid

/-- JSON value model for `ManifestParser::LoadFromFile` (numbers are
exact rationals). -/
inductive Json
  | null
  | bool (b : Bool)
  | num (q : Rat)
  | str (s : String)
  | arr (xs : List Json)
  | obj (fields : List (String × Json))

/-- `nlohmann::json::contains`. -/
def Json.hasKey : Json → String → Bool
  | .obj fields, k => (fields.find? (fun f => f.1 = k)).isSome
  | _, _ => false

/-- `operator[]` read access on a const json object (missing keys read as
null). -/
def Json.getKey : Json → String → Json
  | .obj fields, k =>
    match fields.find? (fun f => f.1 = k) with
    | some f => f.2
    | none => .null
  | _, _ => .null

/-- `get<int>()`: numbers are cast (truncated toward zero), booleans
convert, anything else throws `json::type_error` (modelled as `.error`,
caught by `LoadFromFile` which then fails the whole parse). -/
def Json.asInt : Json → Except String Int
  | .num q => .ok (if 0 ≤ q then ⌊q⌋ else ⌈q⌉)
  | .bool b => .ok (if b then 1 else 0)
  | _ => .error "type_error: not a number"

/-- `get<float>()`. -/
def Json.asNum : Json → Except String Rat
  | .num q => .ok q
  | .bool b => .ok (if b then 1 else 0)
  | _ => .error "type_error: not a number"

/-- `get<std::string>()`. -/
def Json.asString : Json → Except String String
  | .str s => .ok s
  | _ => .error "type_error: not a string"

/-- `is_string()`. -/
def Json.isString : Json → Bool
  | .str _ => true
  | _ => false

/-- `dump()`: minified serialization (string escaping and the exact C++
float formatting are approximated; the embedded claims never inspect this
text). -/
def Json.dump : Json → String
  | .null => "null"
  | .bool b => if b then "true" else "false"
  | .num q => if q.den = 1 then toString q.num else toString q.num ++ "/" ++ toString q.den
  | .str s => "\x22" ++ s ++ "\x22"
  | .arr xs => "[" ++ String.intercalate "," (xs.attach.map (fun x => Json.dump x.1)) ++ "]"
  | .obj fields =>
    "\x7b" ++
      String.intercalate ","
        (fields.attach.map (fun f => "\x22" ++ f.1.1 ++ "\x22:" ++ Json.dump f.1.2)) ++
      "\x7d"
termination_by j => sizeOf j
decreasing_by
  · have h := List.sizeOf_lt_of_mem x.2
    simp
    omega
  · have h := List.sizeOf_lt_of_mem f.2
    obtain ⟨⟨a, b⟩, hf⟩ := f
    simp at h ⊢
    omega

/-- `items()` iteration over a json object. -/
def Json.objFields : Json → List (String × Json)
  | .obj fields => fields
  | _ => []

/-- Lines 59-80 of `manifest_parser.cpp`: parse one node object.
`id` and `type` are read unconditionally (a type error fails the parse);
`position` is read only when present - when absent the C++ leaves the
default-initialized `float x; float y` members untouched (indeterminate),
modelled as `position := none`; non-string config values are stored as
their `dump()` text. -/
def parseNode (node_json : Json) : Except String NodeInstance := do
  let idv ← (node_json.getKey "id").asInt
  let tyv ← (node_json.getKey "type").asString
  let pos ←
    if node_json.hasKey "position" then do
      let x ← ((node_json.getKey "position").getKey "x").asNum
      let y ← ((node_json.getKey "position").getKey "y").asNum
      pure (some (x, y))
    else
      pure none
  let cfg :=
    if node_json.hasKey "config" then
      (node_json.getKey "config").objFields.map
        (fun f => (f.1, match f.2 with | .str s => s | v => v.dump))
    else []
  pure { id := idv, type := tyv, position := pos, config := cfg }

/-! ## Claim C10: metrics query for an unrecorded block id -/

/-- C10: for every block id with no recorded metrics, `GetBlockMetrics`
returns a record whose `block_id` equals the queried id and whose
counters and latency fields are zero, and it leaves the stored metrics
map unchanged. -/
theorem claim_C10 (st : MetricsState) (bid : String)
    (habsent : mapFind st.block_metrics bid = none) :
    (getBlockMetrics st bid).1.block_id = bid ∧
    (getBlockMetrics st bid).1.execution_count = 0 ∧
    (getBlockMetrics st bid).1.avg_latency_ms = 0 ∧
    (getBlockMetrics st bid).1.total_latency_ms = 0 ∧
    (getBlockMetrics st bid).1.last_execution_time = 0 ∧
    (getBlockMetrics st bid).2 = st := by
  simp [getBlockMetrics, habsent]

theorem claim_C10_witness :
    mapFind (MetricsState.mk [("other", {})]).block_metrics "b" = none ∧
    ((getBlockMetrics ⟨[("other", {})]⟩ "b").1.block_id = "b" ∧
     (getBlockMetrics ⟨[("other", {})]⟩ "b").1.execution_count = 0 ∧
     (getBlockMetrics ⟨[("other", {})]⟩ "b").1.avg_latency_ms = 0 ∧
     (getBlockMetrics ⟨[("other", {})]⟩ "b").1.total_latency_ms = 0 ∧
     (getBlockMetrics ⟨[("other", {})]⟩ "b").1.last_execution_time = 0 ∧
     (getBlockMetrics ⟨[("other", {})]⟩ "b").2 = ⟨[("other", {})]⟩) :=
  ⟨by decide, claim_C10 ⟨[("other", {})]⟩ "b" (by decide)⟩

/-! ## Claim C9: node position default when absent -/

/-- C9: for a manifest node object lacking a "position" field, parsing
succeeds, but the position coordinates are never assigned: the C++
default-initialized `float x; float y` members stay indeterminate
(`position = none` in the embedding), not (0, 0) as the specification
states. -/
theorem claim_C9 :
    parseNode (.obj [("id", .num 1), ("type", .str "blkA")]) =
      .ok { id := 1, type := "blkA", config := [], position := none } := by
  rfl

/-! ## Claim C7: shutdown call multiplicity -/

/-- C7 counterexample: two nodes sharing one cached block instance (here
instance 7, as produced by the loader cache when both nodes resolve to the
same (id, version)) receive one `Shutdown()` call each, so the shared
instance is shut down twice, not exactly once. -/
theorem claim_C7_counterexample :
    (shutdownExecutor
        { nodes :=
            [(1, { node_id := 1, node_type := "a", block := some 7, config := [],
                   input_values := [], output_values := [] }),
             (2, { node_id := 2, node_type := "b", block := some 7, config := [],
                   input_values := [], output_values := [] })],
          connections := [], execution_order := [1, 2], total_executions := 0,
          total_errors := 0, avg_execution_time_ms := 0, error := "" }).2 = [7, 7] ∧
    ¬ (shutdownExecutor
        { nodes :=
            [(1, { node_id := 1, node_type := "a", block := some 7, config := [],
                   input_values := [], output_values := [] }),
             (2, { node_id := 2, node_type := "b", block := some 7, config := [],
                   input_values := [], output_values := [] })],
          connections := [], execution_order := [1, 2], total_executions := 0,
          total_errors := 0, avg_execution_time_ms := 0, error := "" }).2.count 7 = 1 := by
  exact ⟨rfl, by decide⟩

/-- The shutdown event fold is the list of non-null block pointers of the
node map, in map order. -/
theorem shutdownExecutor_events (st : ExecutorState) :
    (shutdownExecutor st).2 = st.nodes.filterMap (fun p => p.2.block) := by
  show st.nodes.foldl _ [] = _
  suffices h : ∀ (l : List (Int × ExecutionNode)) (acc : List Nat),
      l.foldl (fun evs p => match p.2.block with | some inst => evs ++ [inst] | none => evs) acc =
        acc ++ l.filterMap (fun p => p.2.block) by
    simpa using h st.nodes []
  intro l
  induction l with
  | nil => simp
  | cons p rest ih =>
    intro acc
    match hb : p.2.block with
    | some inst => simp [List.filterMap_cons, hb, ih]
    | none => simp [List.filterMap_cons, hb, ih]

/-- C7 (corrected): executor shutdown calls `Shutdown()` exactly once per
node whose block pointer is non-null (regardless of whether `Initialize`
succeeded, which the shutdown loop never consults), and then clears the
graph.  Consequently an instance shared by several nodes receives one
call per node referencing it, not one call in total. -/
theorem claim_C7 (st : ExecutorState) (p : Nat) :
    (shutdownExecutor st).2.count p =
      (st.nodes.filter (fun q => q.2.block == some p)).length ∧
    (shutdownExecutor st).1.nodes = [] := by
  refine ⟨?_, rfl⟩
  rw [shutdownExecutor_events]
  induction st.nodes with
  | nil => rfl
  | cons q rest ih =>
    match hb : q.2.block with
    | some b =>
      by_cases hbp : b = p
      · subst hbp
        simp [List.filterMap_cons, hb, List.filter_cons, ih, List.count_cons]
      · simp [List.filterMap_cons, hb, List.filter_cons, ih, List.count_cons, hbp]
    | none => simp [List.filterMap_cons, hb, List.filter_cons, ih]

/-! ## Claim C5: determinism and tie-break of the execution order -/

/-- A minimal execution node fixture for concrete scheduler inputs. -/
def plainNode (n : Int) : ExecutionNode :=
  { node_id := n, node_type := "t", block := some 0, config := [],
    input_values := [], output_values := [] }

/-- C5 counterexample: two manifests with the same node ids and the same
set of connections, differing only in the order the connections are
listed, produce different execution orders ([1, 2, 3] versus [1, 3, 2]);
in the first the simultaneously-ready nodes 2 and 3 are not emitted in
descending node_id order.  So the order depends on the connection listing
order, not only on the edge set. -/
theorem claim_C5_counterexample :
    buildExecutionOrder [(1, plainNode 1), (2, plainNode 2), (3, plainNode 3)]
        [⟨1, "o", 3, "i"⟩, ⟨1, "o", 2, "i"⟩] = ([1, 2, 3], true) ∧
    buildExecutionOrder [(1, plainNode 1), (2, plainNode 2), (3, plainNode 3)]
        [⟨1, "o", 2, "i"⟩, ⟨1, "o", 3, "i"⟩] = ([1, 3, 2], true) ∧
    ([⟨1, "o", 3, "i"⟩, ⟨1, "o", 2, "i"⟩] : List Connection).Perm
      [⟨1, "o", 2, "i"⟩, ⟨1, "o", 3, "i"⟩] := by
  refine ⟨by decide, by decide, ?_⟩
  exact List.Perm.swap _ _ _

/-- `kahnLoop` with an empty adjacency function empties its stack into
the order, keeping the stack sequence. -/
theorem kahnLoop_no_adj (deg : Int → Int) :
    ∀ (st : List Int) (fuel : Nat) (order : List Int), st.length ≤ fuel →
      kahnLoop (fun _ => []) fuel deg st order = (order ++ st, []) := by
  intro st
  induction st with
  | nil =>
    intro fuel order _
    match fuel with
    | 0 => simp [kahnLoop]
    | f + 1 => simp [kahnLoop]
  | cons cur rest ih =>
    intro fuel order hf
    match fuel with
    | 0 => simp at hf
    | f + 1 =>
      have hr : rest.length ≤ f := by simpa using hf
      have hstep : kahnLoop (fun _ => []) (f + 1) deg (cur :: rest) order =
          kahnLoop (fun _ => []) f deg rest (order ++ [cur]) := rfl
      rw [hstep, ih f (order ++ [cur]) hr]
      simp

/-- C5 (corrected): the execution order is a deterministic function of the
node map and the connection list, but it depends on the listing order of
the connections (see the counterexample).  The initially-ready nodes are
popped LIFO from an ascending-key vector, i.e. in descending node_id
order; in particular a graph with no connections is ordered by strictly
descending node_id. -/
theorem claim_C5 (nodes : List (Int × ExecutionNode)) :
    buildExecutionOrder nodes [] = ((nodes.map Prod.fst).reverse, true) := by
  unfold buildExecutionOrder kahnSort
  have hkeys : buildKeys (nodes.map Prod.fst) [] = nodes.map Prod.fst := rfl
  have hdeg : ∀ v, inDegreeOf [] v = 0 := fun v => rfl
  simp only [hkeys]
  have hfilter : ((nodes.map Prod.fst).filter (fun k => inDegreeOf [] k == 0)) =
      nodes.map Prod.fst := by
    apply List.filter_eq_self.mpr
    intro a _
    simp [inDegreeOf]
  rw [hfilter]
  have hadj : adjOf [] = fun _ => [] := by
    funext u
    rfl
  rw [hadj, kahnLoop_no_adj _ _ _ _ (by simp)]
  simp

/-! ## Claim C8: metrics monotonicity and average -/

/-- C8 counterexample: `Reset` is a metrics operation after which the
observable `execution_count` of a recorded block drops from 1 back to 0,
so the counter is not non-decreasing across all metrics operations. -/
theorem claim_C8_counterexample :
    (getBlockMetrics (applyMetricsOp ({} : MetricsState) (.recordExec "b" 1 0))
        "b").1.execution_count = 1 ∧
    (getBlockMetrics
        (applyMetricsOp (applyMetricsOp ({} : MetricsState) (.recordExec "b" 1 0)) .reset)
        "b").1.execution_count = 0 := by
  exact ⟨rfl, rfl⟩

/-- Folding `RecordBlockExecution` over a non-empty latency list: the
record exists afterwards with its counter increased by the number of
records, its total increased by their sum, and its average equal to
total divided by count. -/
theorem record_foldl_spec (bid : String) (now : Nat) :
    ∀ (ls : List Rat) (st : MetricsState), ls ≠ [] →
      ∃ mf, mapFind (ls.foldl (fun s l => recordBlockExecution s bid l now) st).block_metrics
          bid = some mf ∧
        mf.execution_count =
          ((mapFind st.block_metrics bid).getD {}).execution_count + ls.length ∧
        mf.total_latency_ms =
          ((mapFind st.block_metrics bid).getD {}).total_latency_ms + ls.sum ∧
        mf.avg_latency_ms = mf.total_latency_ms / (mf.execution_count : Rat) ∧
        mf.block_id = bid := by
  intro ls
  induction ls with
  | nil => intro st h; exact absurd rfl h
  | cons l rest ih =>
    intro st _
    set m0 := (mapFind st.block_metrics bid).getD {} with hm0
    have hstep : mapFind (recordBlockExecution st bid l now).block_metrics bid =
        some { m0 with
                block_id := bid, execution_count := m0.execution_count + 1,
                total_latency_ms := m0.total_latency_ms + l,
                avg_latency_ms :=
                  (m0.total_latency_ms + l) / ((m0.execution_count + 1 : Nat) : Rat),
                last_execution_time := now } := by
      simp [recordBlockExecution, mapFind_mapSet, hm0]
    by_cases hrest : rest = []
    · subst hrest
      refine ⟨_, hstep, ?_, ?_, ?_, rfl⟩ <;> simp
    · obtain ⟨mf, hfind, hcnt, htot, havg, hbid⟩ :=
        ih (recordBlockExecution st bid l now) hrest
      refine ⟨mf, hfind, ?_, ?_, havg, hbid⟩
      · rw [hcnt, hstep]
        simp
        omega
      · rw [htot, hstep]
        simp
        ring

/-- C8 (corrected): `execution_count` is non-decreasing across the
record operations (`RecordBlockExecution`, `RecordBlockOutput`) - `Reset`
and `ResetBlock` instead erase records, dropping the observable count to
zero - and after N `RecordBlockExecution` calls with latencies l1..lN on
a previously unrecorded block id, the stored `avg_latency_ms` equals
(l1+...+lN)/N (doubles modelled as exact rationals). -/
theorem claim_C8 (ls : List Rat) (st : MetricsState) (bid : String) (now : Nat)
    (hne : ls ≠ []) (habsent : mapFind st.block_metrics bid = none) :
    (∀ (st' : MetricsState) (bid' qid : String) (lat : Rat) (now' : Nat),
      (getBlockMetrics st' qid).1.execution_count ≤
        (getBlockMetrics (recordBlockExecution st' bid' lat now') qid).1.execution_count) ∧
    (∀ (st' : MetricsState) (bid' pin value ty qid : String),
      (getBlockMetrics st' qid).1.execution_count ≤
        (getBlockMetrics (recordBlockOutput st' bid' pin value ty) qid).1.execution_count) ∧
    (getBlockMetrics (ls.foldl (fun s l => recordBlockExecution s bid l now) st)
        bid).1.execution_count = ls.length ∧
    (getBlockMetrics (ls.foldl (fun s l => recordBlockExecution s bid l now) st)
        bid).1.avg_latency_ms = ls.sum / (ls.length : Rat) := by
  refine ⟨?_, ?_, ?_, ?_⟩
  · intro st' bid' qid lat now'
    by_cases hq : qid = bid'
    · subst hq
      cases hfound : mapFind st'.block_metrics qid with
      | none =>
        simp [recordBlockExecution, getBlockMetrics, mapFind_mapSet, hfound]
      | some m =>
        simp [recordBlockExecution, getBlockMetrics, mapFind_mapSet, hfound]
    · simp only [recordBlockExecution, getBlockMetrics, mapFind_mapSet, hq, if_false]
      cases hfound : mapFind st'.block_metrics qid <;> simp [hfound]
  · intro st' bid' pin value ty qid
    by_cases hq : qid = bid'
    · subst hq
      cases hfound : mapFind st'.block_metrics qid with
      | none => simp [recordBlockOutput, getBlockMetrics, mapFind_mapSet, hfound]
      | some m => simp [recordBlockOutput, getBlockMetrics, mapFind_mapSet, hfound]
    · simp only [recordBlockOutput, getBlockMetrics, mapFind_mapSet, hq, if_false]
      cases hfound : mapFind st'.block_metrics qid <;> simp [hfound]
  · obtain ⟨mf, hfind, hcnt, _, _, _⟩ := record_foldl_spec bid now ls st hne
    rw [habsent] at hcnt
    simp at hcnt
    simp [getBlockMetrics, hfind, hcnt]
  · obtain ⟨mf, hfind, hcnt, htot, havg, _⟩ := record_foldl_spec bid now ls st hne
    rw [habsent] at hcnt htot
    simp at hcnt htot
    simp [getBlockMetrics, hfind]
    rw [havg, hcnt, htot]

theorem claim_C8_witness :
    ([1, 3] : List Rat) ≠ [] ∧
    mapFind (MetricsState.mk []).block_metrics "b" = none ∧
    ((∀ (st' : MetricsState) (bid' qid : String) (lat : Rat) (now' : Nat),
      (getBlockMetrics st' qid).1.execution_count ≤
        (getBlockMetrics (recordBlockExecution st' bid' lat now') qid).1.execution_count) ∧
    (∀ (st' : MetricsState) (bid' pin value ty qid : String),
      (getBlockMetrics st' qid).1.execution_count ≤
        (getBlockMetrics (recordBlockOutput st' bid' pin value ty) qid).1.execution_count) ∧
    (getBlockMetrics (([1, 3] : List Rat).foldl
        (fun s l => recordBlockExecution s "b" l 0) ⟨[]⟩) "b").1.execution_count =
      ([1, 3] : List Rat).length ∧
    (getBlockMetrics (([1, 3] : List Rat).foldl
        (fun s l => recordBlockExecution s "b" l 0) ⟨[]⟩) "b").1.avg_latency_ms =
      ([1, 3] : List Rat).sum / ((([1, 3] : List Rat).length : Nat) : Rat)) :=
  ⟨by decide, rfl, claim_C8 [1, 3] ⟨[]⟩ "b" 0 (by decide) rfl⟩

/-! ## Claim C6: loader caching idempotence -/

/-- A cache hit returns the cached instance with no events and no state
change. -/
theorem loadBlock_cached (env : String → LibraryBehavior) (st : LoaderState)
    (bid ver : String) (lb : LoadedBlock)
    (hc : mapFind st.loaded_blocks (getBlockKey bid ver) = some lb) :
    loadBlock env st bid ver = (some lb.inst, st, []) := by
  simp [loadBlock, hc]

/-- Iterated calls on a cached key return the cached instance every time,
with no events and no state change. -/
theorem loadBlockN_cached (env : String → LibraryBehavior) (bid ver : String)
    (lb : LoadedBlock) :
    ∀ (n : Nat) (st : LoaderState),
      mapFind st.loaded_blocks (getBlockKey bid ver) = some lb →
      loadBlockN env bid ver n st = (st, [], List.replicate n (some lb.inst)) := by
  intro n
  induction n with
  | zero => intro st _; rfl
  | succ m ih =>
    intro st hc
    simp [loadBlockN, loadBlock_cached env st bid ver lb hc, ih st hc,
      List.replicate_succ]

/-- On a cache miss, `LoadBlock` reduces to the open/resolve/create
chain. -/
theorem loadBlock_miss (env : String → LibraryBehavior) (st0 : LoaderState)
    (bid ver : String)
    (hmiss : mapFind st0.loaded_blocks (getBlockKey bid ver) = none) :
    loadBlock env st0 bid ver =
      (if !(env (getBlockPath st0 bid ver)).openOk then
        (none, st0, [.libOpen (getBlockPath st0 bid ver)])
       else if !(env (getBlockPath st0 bid ver)).createSym then
        (none, st0, [.libOpen (getBlockPath st0 bid ver), .libClose (getBlockPath st0 bid ver)])
       else if !(env (getBlockPath st0 bid ver)).destroySym then
        (none, st0, [.libOpen (getBlockPath st0 bid ver), .libClose (getBlockPath st0 bid ver)])
       else
        match (env (getBlockPath st0 bid ver)).created with
        | none =>
          (none, st0,
           [.libOpen (getBlockPath st0 bid ver), .createCall (getBlockPath st0 bid ver),
            .libClose (getBlockPath st0 bid ver)])
        | some b =>
          (some b,
           LoaderState.mk st0.block_library_path
             (mapSet st0.loaded_blocks (getBlockKey bid ver)
               (LoadedBlock.mk bid ver (env (getBlockPath st0 bid ver)).handle b)),
           [.libOpen (getBlockPath st0 bid ver), .createCall (getBlockPath st0 bid ver)])) := by
  simp [loadBlock, hmiss]

/-- C6: for any (block_id, version) not yet cached, if the first
`LoadBlock` call returns an instance, then any number of successive calls
all return that same instance, exactly one library open and exactly one
`CreateBlock` call happen in total (on the first call), and every
subsequent call leaves the cache exactly as the first call left it. -/
theorem claim_C6 (env : String → LibraryBehavior) (st0 : LoaderState) (bid ver : String)
    (b : Nat) (n : Nat) (hn : 1 ≤ n)
    (hmiss : mapFind st0.loaded_blocks (getBlockKey bid ver) = none)
    (hfirst : (loadBlock env st0 bid ver).1 = some b) :
    (loadBlockN env bid ver n st0).2.2 = List.replicate n (some b) ∧
    ((loadBlockN env bid ver n st0).2.1.filter LoadEvent.isOpen).length = 1 ∧
    ((loadBlockN env bid ver n st0).2.1.filter LoadEvent.isCreate).length = 1 ∧
    (loadBlockN env bid ver n st0).1 = (loadBlock env st0 bid ver).2.1 := by
  have hexp := loadBlock_miss env st0 bid ver hmiss
  cases hopen : (env (getBlockPath st0 bid ver)).openOk with
  | false => rw [hexp] at hfirst; simp [hopen] at hfirst
  | true =>
  cases hcs : (env (getBlockPath st0 bid ver)).createSym with
  | false => rw [hexp] at hfirst; simp [hopen, hcs] at hfirst
  | true =>
  cases hds : (env (getBlockPath st0 bid ver)).destroySym with
  | false => rw [hexp] at hfirst; simp [hopen, hcs, hds] at hfirst
  | true =>
  cases hcr : (env (getBlockPath st0 bid ver)).created with
  | none => rw [hexp] at hfirst; simp [hopen, hcs, hds, hcr] at hfirst
  | some b0 =>
  rw [hexp] at hfirst ⊢
  simp only [hopen, hcs, hds, hcr, Bool.not_true, Bool.false_eq_true, if_false] at hfirst ⊢
  have hb0 : b0 = b := by simpa using hfirst
  subst hb0
  obtain ⟨m, hm⟩ : ∃ m, n = m + 1 := ⟨n - 1, by omega⟩
  subst hm
  have hc1 : mapFind
      (mapSet st0.loaded_blocks (getBlockKey bid ver)
        (LoadedBlock.mk bid ver (env (getBlockPath st0 bid ver)).handle b0))
      (getBlockKey bid ver) =
      some (LoadedBlock.mk bid ver (env (getBlockPath st0 bid ver)).handle b0) := by
    simp [mapFind_mapSet]
  rw [loadBlockN]
  rw [hexp]
  simp only [hopen, hcs, hds, hcr, Bool.not_true, Bool.false_eq_true, if_false]
  rw [loadBlockN_cached env bid ver _ m _ hc1]
  simp [List.replicate_succ, LoadEvent.isOpen, LoadEvent.isCreate]

/-- A loader environment in which every library opens, resolves and
creates instance 42. -/
def c6Env : String → LibraryBehavior := fun _ =>
  { openOk := true, createSym := true, destroySym := true, handle := 11, created := some 42 }

theorem claim_C6_witness :
    1 ≤ 3 ∧
    mapFind (LoaderState.mk "/lib/" []).loaded_blocks (getBlockKey "blk" "1.0.0") = none ∧
    (loadBlock c6Env ⟨"/lib/", []⟩ "blk" "1.0.0").1 = some 42 ∧
    ((loadBlockN c6Env "blk" "1.0.0" 3 ⟨"/lib/", []⟩).2.2 = List.replicate 3 (some 42) ∧
     ((loadBlockN c6Env "blk" "1.0.0" 3 ⟨"/lib/", []⟩).2.1.filter
        LoadEvent.isOpen).length = 1 ∧
     ((loadBlockN c6Env "blk" "1.0.0" 3 ⟨"/lib/", []⟩).2.1.filter
        LoadEvent.isCreate).length = 1 ∧
     (loadBlockN c6Env "blk" "1.0.0" 3 ⟨"/lib/", []⟩).1 =
       (loadBlock c6Env ⟨"/lib/", []⟩ "blk" "1.0.0").2.1) :=
  ⟨by decide, rfl, rfl, claim_C6 c6Env ⟨"/lib/", []⟩ "blk" "1.0.0" 42 3 (by decide) rfl rfl⟩

/-! ## Data transfer lemmas (for C4 and C2) -/

/-- Input snapshot value of node `w` at pin `pin`. -/
def inputAt (m : List (Int × ExecutionNode)) (w : Int) (pin : String) : Option BlockValue :=
  (imapFind m w).bind (fun nd => mapFind nd.input_values pin)

/-- `m` has the same node presence, block pointers and output snapshots
as `m0` (only input snapshots may differ). -/
def sameShape (m0 m : List (Int × ExecutionNode)) : Prop :=
  ∀ w, ((imapFind m w).map ExecutionNode.block = (imapFind m0 w).map ExecutionNode.block) ∧
       ((imapFind m w).map ExecutionNode.output_values =
         (imapFind m0 w).map ExecutionNode.output_values)

/-- A transfer step never changes presence, block pointers or output
snapshots. -/
theorem transferStep_shape (nodes : List (Int × ExecutionNode)) (c : Connection) (w : Int) :
    ((imapFind (transferStep nodes c) w).map ExecutionNode.block =
      (imapFind nodes w).map ExecutionNode.block) ∧
    ((imapFind (transferStep nodes c) w).map ExecutionNode.output_values =
      (imapFind nodes w).map ExecutionNode.output_values) := by
  unfold transferStep
  rcases hfrom : imapFind nodes c.from_node_id with _ | fromNode
  · simp [hfrom]
  rcases hto : imapFind nodes c.to_node_id with _ | toNode
  · simp [hfrom, hto]
  rcases hfb : fromNode.block with _ | fb
  · simp [hfrom, hto, hfb]
  rcases htb : toNode.block with _ | tb
  · simp [hfrom, hto, hfb, htb]
  rcases hv : mapFind fromNode.output_values c.from_pin with _ | v
  · simp [hfrom, hto, hfb, htb, hv]
  simp only [hfrom, hto, hfb, htb, hv]
  rw [imapFind_imapSet]
  by_cases hw : w = c.to_node_id
  · subst hw
    simp [hto, htb]
  · simp [hw]

theorem sameShape_refl (m : List (Int × ExecutionNode)) : sameShape m m :=
  fun _ => ⟨rfl, rfl⟩

theorem sameShape_transferStep {m0 m : List (Int × ExecutionNode)} (c : Connection)
    (h : sameShape m0 m) : sameShape m0 (transferStep m c) := by
  intro w
  obtain ⟨hb, ho⟩ := transferStep_shape m c w
  exact ⟨hb.trans (h w).1, ho.trans (h w).2⟩

theorem sameShape_transferData {m0 m : List (Int × ExecutionNode)}
    (conns : List Connection) (h : sameShape m0 m) :
    sameShape m0 (transferData conns m) := by
  induction conns generalizing m with
  | nil => exact h
  | cons c rest ih => exact ih (sameShape_transferStep c h)

/-- Processing connection `c` on any state with the shape of `nodes`
(where `c` joins two present nodes with non-null blocks and the upstream
pin has value `v`) stores exactly `v` in the downstream input snapshot. -/
theorem transferStep_sets {nodes m : List (Int × ExecutionNode)} {c : Connection}
    {fromNode toNode : ExecutionNode} {v : BlockValue}
    (hshape : sameShape nodes m)
    (hfrom : imapFind nodes c.from_node_id = some fromNode)
    (hto : imapFind nodes c.to_node_id = some toNode)
    (hfb : fromNode.block.isSome) (htb : toNode.block.isSome)
    (hv : mapFind fromNode.output_values c.from_pin = some v) :
    inputAt (transferStep m c) c.to_node_id c.to_pin = some v := by
  obtain ⟨hbf, hof⟩ := hshape c.from_node_id
  obtain ⟨hbt, _⟩ := hshape c.to_node_id
  rw [hfrom] at hbf hof
  rw [hto] at hbt
  rcases hfrom' : imapFind m c.from_node_id with _ | fromNode'
  · rw [hfrom'] at hbf; simp at hbf
  rcases hto' : imapFind m c.to_node_id with _ | toNode'
  · rw [hto'] at hbt; simp at hbt
  rw [hfrom'] at hbf hof
  rw [hto'] at hbt
  simp at hbf hof hbt
  obtain ⟨fb, hfb'⟩ := Option.isSome_iff_exists.mp hfb
  obtain ⟨tb, htb'⟩ := Option.isSome_iff_exists.mp htb
  have hv' : mapFind fromNode'.output_values c.from_pin = some v := by
    rw [hof, hv]
  unfold transferStep
  rw [hfrom', hto']
  simp only [hbf, hbt, hfb', htb', hv']
  unfold inputAt
  rw [imapFind_imapSet]
  simp [mapFind_mapSet]

/-- A transfer step over a connection aimed at a different (node, pin)
target leaves that input snapshot entry unchanged. -/
theorem transferStep_keep (m : List (Int × ExecutionNode)) (c' : Connection)
    (w : Int) (pin : String) (hne : ¬(c'.to_node_id = w ∧ c'.to_pin = pin)) :
    inputAt (transferStep m c') w pin = inputAt m w pin := by
  unfold transferStep
  rcases hfrom : imapFind m c'.from_node_id with _ | fromNode
  · simp [hfrom]
  rcases hto : imapFind m c'.to_node_id with _ | toNode
  · simp [hfrom, hto]
  rcases hfb : fromNode.block with _ | fb
  · simp [hfrom, hto, hfb]
  rcases htb : toNode.block with _ | tb
  · simp [hfrom, hto, hfb, htb]
  rcases hv : mapFind fromNode.output_values c'.from_pin with _ | v
  · simp [hfrom, hto, hfb, htb, hv]
  simp only [hfrom, hto, hfb, htb, hv]
  unfold inputAt
  rw [imapFind_imapSet]
  by_cases hw : w = c'.to_node_id
  · subst hw
    have hpin : ¬ c'.to_pin = pin := fun h => hne ⟨rfl, h⟩
    simp [hto, mapFind_mapSet, Ne.symm hpin]
  · simp [hw]

/-! ## Claim C4: per-edge value transfer and coercion -/

/-- C4 counterexample: with the upstream output pin holding Int32 42 and
the downstream block declaring its input pin "in" as float, the
transferred snapshot value is still Int32 42 - `TransferData` performs no
coercion, so the value's tag stays `int` instead of the declared `float`
tag (the claim predicts Float32 42.0). -/
theorem claim_C4_counterexample :
    (BlockBehavior.inputPins
        { execOk := true, inputPins := [⟨"in", "float", true⟩], outputPins := [],
          getOutput := fun _ => .bool false }).map Pin.type = ["float"] ∧
    inputAt
      (transferData [⟨1, "out", 2, "in"⟩]
        [(1, { node_id := 1, node_type := "a", block := some 5, config := [],
               input_values := [], output_values := [("out", .int 42)] }),
         (2, { node_id := 2, node_type := "b", block := some 6, config := [],
               input_values := [], output_values := [] })]) 2 "in" =
      some (BlockValue.int 42) ∧
    (BlockValue.int 42).tag ≠ ValueTag.float := by
  exact ⟨rfl, rfl, by decide⟩

/-- C4 (corrected): for every connection whose upstream output value is
present, the value is copied to the downstream input snapshot (and passed
to `SetInput`) verbatim - no coercion to the declared type of the
downstream input pin is performed, so the transferred value keeps the
upstream tag. -/
theorem claim_C4 (conns : List Connection) (nodes : List (Int × ExecutionNode))
    (c : Connection) (fromNode toNode : ExecutionNode) (v : BlockValue)
    (hc : c ∈ conns)
    (hfrom : imapFind nodes c.from_node_id = some fromNode)
    (hto : imapFind nodes c.to_node_id = some toNode)
    (hfb : fromNode.block.isSome) (htb : toNode.block.isSome)
    (hv : mapFind fromNode.output_values c.from_pin = some v)
    (huniq : ∀ c' ∈ conns, c'.to_node_id = c.to_node_id → c'.to_pin = c.to_pin → c' = c) :
    inputAt (transferData conns nodes) c.to_node_id c.to_pin = some v := by
  obtain ⟨l1, l2, hsplit⟩ := List.append_of_mem hc
  subst hsplit
  rw [transferData, List.foldl_append, List.foldl_cons]
  have hshape1 : sameShape nodes (List.foldl transferStep nodes l1) :=
    sameShape_transferData l1 (sameShape_refl nodes)
  have main : ∀ (l : List Connection) (m : List (Int × ExecutionNode)),
      (∀ c' ∈ l, c'.to_node_id = c.to_node_id → c'.to_pin = c.to_pin → c' = c) →
      sameShape nodes m →
      inputAt m c.to_node_id c.to_pin = some v →
      inputAt (List.foldl transferStep m l) c.to_node_id c.to_pin = some v := by
    intro l
    induction l with
    | nil => intro m _ _ hin; exact hin
    | cons c' rest ih =>
      intro m hu hshape hin
      rw [List.foldl_cons]
      have hin' : inputAt (transferStep m c') c.to_node_id c.to_pin = some v := by
        by_cases heq : c'.to_node_id = c.to_node_id ∧ c'.to_pin = c.to_pin
        · have hc' : c' = c := hu c' (List.mem_cons_self c' rest) heq.1 heq.2
          subst hc'
          exact transferStep_sets hshape hfrom hto hfb htb hv
        · rw [transferStep_keep m c' c.to_node_id c.to_pin heq]
          exact hin
      exact ih (transferStep m c') (fun x hx => hu x (List.mem_cons_of_mem c' hx))
        (sameShape_transferStep c' hshape) hin'
  exact main l2 _
    (fun x hx => huniq x (List.mem_append_right l1 (List.mem_cons_of_mem c hx)))
    (sameShape_transferStep c hshape1)
    (transferStep_sets hshape1 hfrom hto hfb htb hv)

/-- Upstream fixture node holding Int32 42 on its output pin. -/
def c4NodeA : ExecutionNode :=
  { node_id := 1, node_type := "a", block := some 5, config := [],
    input_values := [], output_values := [("out", .int 42)] }

/-- Downstream fixture node. -/
def c4NodeB : ExecutionNode :=
  { node_id := 2, node_type := "b", block := some 6, config := [],
    input_values := [], output_values := [] }

theorem claim_C4_witness :
    (⟨1, "out", 2, "in"⟩ : Connection) ∈ [(⟨1, "out", 2, "in"⟩ : Connection)] ∧
    imapFind [(1, c4NodeA), (2, c4NodeB)]
      (Connection.from_node_id ⟨1, "out", 2, "in"⟩) = some c4NodeA ∧
    imapFind [(1, c4NodeA), (2, c4NodeB)]
      (Connection.to_node_id ⟨1, "out", 2, "in"⟩) = some c4NodeB ∧
    c4NodeA.block.isSome = true ∧ c4NodeB.block.isSome = true ∧
    mapFind c4NodeA.output_values (Connection.from_pin ⟨1, "out", 2, "in"⟩) =
      some (.int 42) ∧
    (∀ c' ∈ [(⟨1, "out", 2, "in"⟩ : Connection)],
      c'.to_node_id = Connection.to_node_id ⟨1, "out", 2, "in"⟩ →
      c'.to_pin = Connection.to_pin ⟨1, "out", 2, "in"⟩ →
      c' = ⟨1, "out", 2, "in"⟩) ∧
    inputAt (transferData [⟨1, "out", 2, "in"⟩] [(1, c4NodeA), (2, c4NodeB)])
      (Connection.to_node_id ⟨1, "out", 2, "in"⟩)
      (Connection.to_pin ⟨1, "out", 2, "in"⟩) = some (.int 42) :=
  ⟨by decide, rfl, rfl, rfl, rfl, rfl, by decide,
   claim_C4 [⟨1, "out", 2, "in"⟩] [(1, c4NodeA), (2, c4NodeB)] ⟨1, "out", 2, "in"⟩
     c4NodeA c4NodeB (.int 42) (by decide) rfl rfl rfl rfl rfl (by decide)⟩

/-! ## Claim C2: failure containment within a tick -/

/-- Node `u` exists in the map and has a non-null block (the condition
under which the tick loop calls `Execute` on it). -/
def presentWithBlock (nodes : List (Int × ExecutionNode)) (u : Int) : Bool :=
  match imapFind nodes u with
  | some m => m.block.isSome
  | none => false

/-- Node `u` exists, has a block, and that block's `Execute` returns
false this tick. -/
def nodeFails (behavior : Nat → BlockBehavior) (nodes : List (Int × ExecutionNode))
    (u : Int) : Bool :=
  match imapFind nodes u with
  | some m =>
    match m.block with
    | some i => !(behavior i).execOk
    | none => false
  | none => false

/-- Invariant of the tick loop relative to the pre-tick node map: node
presence and block pointers never change, and the output snapshot of any
node whose block fails this tick (or that has no block) never changes. -/
def tickInv (behavior : Nat → BlockBehavior)
    (nodes0 m : List (Int × ExecutionNode)) : Prop :=
  (∀ w, (imapFind m w).map ExecutionNode.block =
    (imapFind nodes0 w).map ExecutionNode.block) ∧
  (∀ w mw m0w, imapFind m w = some mw → imapFind nodes0 w = some m0w →
    (∀ i, m0w.block = some i → (behavior i).execOk = false) →
    mw.output_values = m0w.output_values)

theorem tickInv_refl (behavior : Nat → BlockBehavior) (m : List (Int × ExecutionNode)) :
    tickInv behavior m m := by
  refine ⟨fun _ => rfl, ?_⟩
  intro w mw m0w hm hm0 _
  rw [hm] at hm0
  injection hm0 with h
  rw [h]

theorem tickInv_transferData {behavior : Nat → BlockBehavior}
    {nodes0 m : List (Int × ExecutionNode)} (conns : List Connection)
    (h : tickInv behavior nodes0 m) :
    tickInv behavior nodes0 (transferData conns m) := by
  have hs : sameShape m (transferData conns m) :=
    sameShape_transferData conns (sameShape_refl m)
  constructor
  · intro w
    exact (hs w).1.trans (h.1 w)
  · intro w mw m0w hm hm0 hcond
    have ho := (hs w).2
    cases hmm : imapFind m w with
    | none => rw [hm, hmm] at ho; simp at ho
    | some mm =>
      rw [hm, hmm] at ho
      simp at ho
      rw [ho]
      exact h.2 w mm m0w hmm hm0 hcond

/-- One iteration of the tick loop: the invariant is preserved, the node
is executed exactly when it is present with a block, and the error
counter grows exactly when its block fails. -/
theorem tickStep_spec (behavior : Nat → BlockBehavior) (conns : List Connection)
    (nodes0 m : List (Int × ExecutionNode)) (errs : Nat) (exl : List Int) (u : Int)
    (hinv : tickInv behavior nodes0 m) :
    tickInv behavior nodes0 (tickStep behavior conns (m, errs, exl) u).1 ∧
    (tickStep behavior conns (m, errs, exl) u).2.2 =
      exl ++ (if presentWithBlock nodes0 u then [u] else []) ∧
    (tickStep behavior conns (m, errs, exl) u).2.1 =
      errs + (if nodeFails behavior nodes0 u then 1 else 0) := by
  have hbw := hinv.1 u
  rcases hm : imapFind m u with _ | node
  · rw [hm] at hbw
    rcases hm0 : imapFind nodes0 u with _ | n0
    · have he : tickStep behavior conns (m, errs, exl) u = (m, errs, exl) := by
        simp [tickStep, hm]
      rw [he]
      exact ⟨hinv, by simp [presentWithBlock, hm0], by simp [nodeFails, hm0]⟩
    · rw [hm0] at hbw
      simp at hbw
  · rw [hm] at hbw
    rcases hm0 : imapFind nodes0 u with _ | n0
    · rw [hm0] at hbw
      simp at hbw
    · rw [hm0] at hbw
      simp at hbw
      rcases hb : node.block with _ | inst
      · have he : tickStep behavior conns (m, errs, exl) u = (m, errs, exl) := by
          simp [tickStep, hm, hb]
        rw [he]
        exact ⟨hinv, by simp [presentWithBlock, hm0, ← hbw, hb],
          by simp [nodeFails, hm0, ← hbw, hb]⟩
      · have hinv1 : tickInv behavior nodes0 (transferData conns m) :=
          tickInv_transferData conns hinv
        have hsh : sameShape m (transferData conns m) :=
          sameShape_transferData conns (sameShape_refl m)
        have hb1 := (hsh u).1
        rw [hm] at hb1
        rcases hm1 : imapFind (transferData conns m) u with _ | node1
        · rw [hm1] at hb1
          simp at hb1
        · rw [hm1] at hb1
          simp at hb1
          have hpresent : presentWithBlock nodes0 u = true := by
            simp [presentWithBlock, hm0, ← hbw, hb]
          have hfails : nodeFails behavior nodes0 u = (!(behavior inst).execOk) := by
            simp [nodeFails, hm0, ← hbw, hb]
          have hb1' : node1.block = some inst := by rw [hb1, hb]
          rcases hex : (behavior inst).execOk with _ | _
          · have he : tickStep behavior conns (m, errs, exl) u =
                (transferData conns m, errs + 1, exl ++ [u]) := by
              simp [tickStep, hm, hb, hex]
            rw [he]
            exact ⟨hinv1, by simp [hpresent], by simp [hfails, hex]⟩
          · have he : tickStep behavior conns (m, errs, exl) u =
                (imapSet (transferData conns m) u (collectOutputs behavior inst node1),
                 errs, exl ++ [u]) := by
              simp [tickStep, hm, hb, hex, hm1]
            rw [he]
            refine ⟨?_, by simp [hpresent], by simp [hfails, hex]⟩
            constructor
            · intro w
              rw [imapFind_imapSet]
              by_cases hw : w = u
              · subst hw
                have hcb : (collectOutputs behavior inst node1).block = node1.block := rfl
                simp [hcb, hb1', hm0, ← hbw, hb]
              · simp only [if_neg hw]
                exact hinv1.1 w
            · intro w mw m0w hmw hm0w hcond
              rw [imapFind_imapSet] at hmw
              by_cases hw : w = u
              · subst hw
                rw [hm0] at hm0w
                injection hm0w with h0
                subst h0
                have hcontra := hcond inst (by rw [← hbw, hb])
                rw [hex] at hcontra
                cases hcontra
              · rw [if_neg hw] at hmw
                exact hinv1.2 w mw m0w hmw hm0w hcond

/-- The tick loop over a node-id list: invariant preserved, executed list
and error-counter increments characterized by filters over the pre-tick
node map. -/
theorem tickLoop_spec (behavior : Nat → BlockBehavior) (conns : List Connection)
    (nodes0 : List (Int × ExecutionNode)) :
    ∀ (order : List Int) (m : List (Int × ExecutionNode)) (errs : Nat) (exl : List Int),
      tickInv behavior nodes0 m →
      tickInv behavior nodes0 (order.foldl (tickStep behavior conns) (m, errs, exl)).1 ∧
      (order.foldl (tickStep behavior conns) (m, errs, exl)).2.2 =
        exl ++ order.filter (presentWithBlock nodes0) ∧
      (order.foldl (tickStep behavior conns) (m, errs, exl)).2.1 =
        errs + (order.filter (nodeFails behavior nodes0)).length := by
  intro order
  induction order with
  | nil =>
    intro m errs exl hinv
    exact ⟨hinv, by simp, by simp⟩
  | cons u rest ih =>
    intro m errs exl hinv
    obtain ⟨hinv', hexl', herr'⟩ := tickStep_spec behavior conns nodes0 m errs exl u hinv
    rw [List.foldl_cons]
    rcases hstep : tickStep behavior conns (m, errs, exl) u with ⟨m', errs', exl'⟩
    rw [hstep] at hinv' hexl' herr'
    dsimp only at hinv' hexl' herr'
    obtain ⟨ih1, ih2, ih3⟩ := ih m' errs' exl' hinv'
    refine ⟨ih1, ?_, ?_⟩
    · rw [ih2, hexl']
      rcases hp : presentWithBlock nodes0 u with _ | _
      · simp [List.filter_cons, hp]
      · simp [List.filter_cons, hp]
    · rw [ih3, herr']
      rcases hf : nodeFails behavior nodes0 u with _ | _
      · simp [List.filter_cons, hf]
      · simp [List.filter_cons, hf]
        omega

/-- A nodup list whose only element satisfying `p` is `v` (which it
contains) filters to exactly `[v]`. -/
theorem filter_eq_singleton (p : Int → Bool) :
    ∀ (l : List Int), l.Nodup → ∀ v, v ∈ l → p v = true →
      (∀ u ∈ l, p u = true → u = v) → l.filter p = [v] := by
  intro l
  induction l with
  | nil => intro _ v hm; cases hm
  | cons a rest ih =>
    intro hnd v hm hp honly
    rcases List.mem_cons.mp hm with ha | hrest
    · subst ha
      have hrest_none : rest.filter p = [] := by
        apply List.filter_eq_nil_iff.mpr
        intro u hu
        intro hpu
        have := honly u (List.mem_cons_of_mem _ hu) hpu
        subst this
        exact absurd hu (List.nodup_cons.mp hnd).1
      simp [List.filter_cons, hp, hrest_none]
    · have hane : p a = false := by
        rcases hpa : p a with _ | _
        · rfl
        · have := honly a (List.mem_cons_self _ _) hpa
          subst this
          exact absurd hrest (List.nodup_cons.mp hnd).1
      rw [List.filter_cons_of_neg (by simp [hane])]
      exact ih (List.nodup_cons.mp hnd).2 v hrest hp
        (fun u hu hpu => honly u (List.mem_cons_of_mem _ hu) hpu)

/-- C2: if node `v`'s block `Execute` returns false during a tick (and it
is the only failing node), then (a) `v`'s output snapshot is unchanged
from before the tick, (b) every node in the execution order that is
present with a block still executes in that tick, (c) `total_errors`
increases by exactly one and the tick completes (returns true and counts
as an execution). -/
theorem claim_C2 (behavior : Nat → BlockBehavior) (d : Rat) (st : ExecutorState)
    (v : Int) (n : ExecutionNode) (inst : Nat)
    (hv : imapFind st.nodes v = some n) (hb : n.block = some inst)
    (hvin : v ∈ st.execution_order)
    (hfail : (behavior inst).execOk = false)
    (hnd : st.execution_order.Nodup)
    (honly : ∀ u ∈ st.execution_order, nodeFails behavior st.nodes u = true → u = v) :
    ((imapFind (executeTick behavior d st).1.nodes v).map ExecutionNode.output_values =
      some n.output_values) ∧
    (∀ u ∈ st.execution_order, presentWithBlock st.nodes u = true →
      u ∈ (executeTick behavior d st).2.2) ∧
    (executeTick behavior d st).1.total_errors = st.total_errors + 1 ∧
    (executeTick behavior d st).2.1 = true ∧
    (executeTick behavior d st).1.total_executions = st.total_executions + 1 := by
  obtain ⟨hinvF, hexlF, herrF⟩ := tickLoop_spec behavior st.connections st.nodes
    st.execution_order st.nodes st.total_errors [] (tickInv_refl behavior st.nodes)
  have hnodesF : (executeTick behavior d st).1.nodes =
      (st.execution_order.foldl (tickStep behavior st.connections)
        (st.nodes, st.total_errors, [])).1 := rfl
  have hexecF : (executeTick behavior d st).2.2 =
      (st.execution_order.foldl (tickStep behavior st.connections)
        (st.nodes, st.total_errors, [])).2.2 := rfl
  have herrsF : (executeTick behavior d st).1.total_errors =
      (st.execution_order.foldl (tickStep behavior st.connections)
        (st.nodes, st.total_errors, [])).2.1 := rfl
  refine ⟨?_, ?_, ?_, rfl, rfl⟩
  · rw [hnodesF]
    have hbw := hinvF.1 v
    rw [hv] at hbw
    rcases hmF : imapFind (st.execution_order.foldl (tickStep behavior st.connections)
        (st.nodes, st.total_errors, [])).1 v with _ | mv
    · rw [hmF] at hbw; simp at hbw
    · rw [hmF] at hbw
      simp at hbw
      have hout := hinvF.2 v mv n hmF hv
        (fun i hi => by rw [hb] at hi; injection hi with h; rw [← h]; exact hfail)
      simp [hout]
  · intro u hu hp
    rw [hexecF, hexlF]
    simp [List.mem_filter, hu, hp]
  · rw [herrsF, herrF]
    have hfails_v : nodeFails behavior st.nodes v = true := by
      simp [nodeFails, hv, hb, hfail]
    rw [filter_eq_singleton (nodeFails behavior st.nodes) st.execution_order hnd v hvin
      hfails_v honly]
    rfl

/-- Fixture node whose block instance 5 will fail this tick. -/
def c2Node1 : ExecutionNode :=
  { node_id := 1, node_type := "a", block := some 5, config := [],
    input_values := [], output_values := [("out", .float 1)] }

/-- Fixture node whose block instance 6 succeeds. -/
def c2Node2 : ExecutionNode :=
  { node_id := 2, node_type := "b", block := some 6, config := [],
    input_values := [], output_values := [] }

/-- Fixture executor state with two nodes in order. -/
def c2State : ExecutorState :=
  { nodes := [(1, c2Node1), (2, c2Node2)], connections := [],
    execution_order := [1, 2], total_executions := 0, total_errors := 0,
    avg_execution_time_ms := 0, error := "" }

/-- Tick behaviour oracle: instance 5 fails `Execute`, others succeed. -/
def c2Behavior : Nat → BlockBehavior := fun i =>
  if i = 5 then
    { execOk := false, inputPins := [], outputPins := [], getOutput := fun _ => .bool false }
  else
    { execOk := true, inputPins := [], outputPins := [], getOutput := fun _ => .bool false }

theorem claim_C2_witness :
    imapFind c2State.nodes 1 = some c2Node1 ∧
    c2Node1.block = some 5 ∧
    (1 : Int) ∈ c2State.execution_order ∧
    (c2Behavior 5).execOk = false ∧
    c2State.execution_order.Nodup ∧
    (∀ u ∈ c2State.execution_order, nodeFails c2Behavior c2State.nodes u = true → u = 1) ∧
    (((imapFind (executeTick c2Behavior 0 c2State).1.nodes 1).map
        ExecutionNode.output_values = some c2Node1.output_values) ∧
     (∀ u ∈ c2State.execution_order, presentWithBlock c2State.nodes u = true →
        u ∈ (executeTick c2Behavior 0 c2State).2.2) ∧
     (executeTick c2Behavior 0 c2State).1.total_errors = c2State.total_errors + 1 ∧
     (executeTick c2Behavior 0 c2State).2.1 = true ∧
     (executeTick c2Behavior 0 c2State).1.total_executions =
       c2State.total_executions + 1) :=
  ⟨rfl, rfl, by decide, rfl, by decide, by decide,
   claim_C2 c2Behavior 0 c2State 1 c2Node1 5 rfl rfl (by decide) rfl (by decide) (by decide)⟩

/-! ## Claim C3: skipped node with incident edge -/

/-- Manifest with two nodes and one edge between them. -/
def c3Manifest : BlockManifest :=
  { format_version := "1.0", pipeline_name := "p", target_platform := "x",
    blocks := [⟨"blkA", "1.0.0", "native", []⟩, ⟨"blkB", "1.0.0", "native", []⟩],
    nodes := [⟨1, "blkA", [], none⟩, ⟨2, "blkB", [], none⟩],
    connections := [⟨1, "out", 2, "in"⟩] }

/-- Loader for which blkB (node 2) fails to load. -/
def c3Loader : String → String → Option Nat := fun bid _ =>
  if bid = "blkA" then some 10 else none

/-- C3: when node 2's block fails to load, the node is skipped but its
incident connection is kept verbatim; `BuildExecutionOrder` then gives the
phantom id 2 an `in_degree` entry, pops it, and ends with an order of
length 2 against one built node, so the build FAILS with a spurious
"Cycle detected in execution graph" although the graph is acyclic - the
remaining pipeline does not run, contradicting the claim and the code's
own "skip missing blocks and continue" comments and its cycle
diagnostic. -/
theorem claim_C3 :
    (buildFromManifest c3Manifest c3Loader).2 = false ∧
    (buildFromManifest c3Manifest c3Loader).1.error =
      "Cycle detected in execution graph" ∧
    (buildFromManifest c3Manifest c3Loader).1.nodes.map Prod.fst = [1] ∧
    (buildFromManifest c3Manifest c3Loader).1.connections = [⟨1, "out", 2, "in"⟩] ∧
    kahnSort [1] [⟨1, "out", 2, "in"⟩] = ([1, 2], false) := by
  exact ⟨by decide, by decide, by decide, by decide, by decide⟩

/-! ## Claim C1: topological correctness of a successful build -/

/-- Manifest with four nodes and edges 2→3 and 1→4 (acyclic, all edge
endpoints are declared nodes, node ids unique: a valid manifest). -/
def c1Manifest : BlockManifest :=
  { format_version := "1.0", pipeline_name := "p", target_platform := "x",
    blocks := [⟨"blkA", "1.0.0", "native", []⟩, ⟨"blkB", "1.0.0", "native", []⟩,
               ⟨"blkC", "1.0.0", "native", []⟩, ⟨"blkD", "1.0.0", "native", []⟩],
    nodes := [⟨1, "blkA", [], none⟩, ⟨2, "blkB", [], none⟩,
              ⟨3, "blkC", [], none⟩, ⟨4, "blkD", [], none⟩],
    connections := [⟨2, "o", 3, "i"⟩, ⟨1, "o", 4, "i"⟩] }

/-- Loader for which the blocks of nodes 2 and 4 fail to load. -/
def c1Loader : String → String → Option Nat := fun bid _ =>
  if bid = "blkA" then some 10 else if bid = "blkC" then some 30 else none

/-- C1 counterexample: the build SUCCEEDS (returns true) on this valid
manifest, yet built node 3 is missing from the computed execution order
(the dangling connections 2→3 and 1→4 of the skipped nodes 2 and 4 create
phantom `in_degree` entries: phantom 4 is popped and pads the order to
the node count, while node 3, blocked by never-popped phantom 2, is left
out).  So the order does not contain every built node. -/
theorem claim_C1_counterexample :
    (buildFromManifest c1Manifest c1Loader).2 = true ∧
    (buildFromManifest c1Manifest c1Loader).1.nodes.map Prod.fst = [1, 3] ∧
    (buildFromManifest c1Manifest c1Loader).1.execution_order = [1, 4] ∧
    (3 : Int) ∉ (buildFromManifest c1Manifest c1Loader).1.execution_order := by
  exact ⟨by decide, by decide, by decide, by decide⟩

/-- Connections into `v` whose source has already been emitted. -/
def inCnt (conns : List Connection) (P : List Int) (v : Int) : Nat :=
  conns.countP (fun c => c.to_node_id == v && P.contains c.from_node_id)

theorem countP_or_disjoint {α : Type} (p q : α → Bool) :
    ∀ (l : List α), (∀ a ∈ l, ¬(p a = true ∧ q a = true)) →
      l.countP (fun a => p a || q a) = l.countP p + l.countP q := by
  intro l
  induction l with
  | nil => intro _; simp
  | cons a rest ih =>
    intro h
    have hrest := ih (fun x hx => h x (List.mem_cons_of_mem _ hx))
    have hna := h a (List.mem_cons_self _ _)
    rcases hp : p a with _ | _ <;> rcases hq : q a with _ | _
    · simp [List.countP_cons, hp, hq, hrest]
    · simp [List.countP_cons, hp, hq, hrest]
      omega
    · simp [List.countP_cons, hp, hq, hrest]
      omega
    · exact absurd ⟨hp, hq⟩ hna

/-- Occurrences of `n` in the adjacency list of `u` are exactly the
connections from `u` to `n`. -/
theorem adjOf_countP (conns : List Connection) (u n : Int) :
    (adjOf conns u).countP (fun x => x == n) =
      conns.countP (fun c => c.from_node_id == u && c.to_node_id == n) := by
  induction conns with
  | nil => rfl
  | cons c rest ih =>
    rcases hcu : c.from_node_id == u with _ | _
    · simp only [adjOf] at ih ⊢
      simp [List.filter_cons, hcu, List.countP_cons, ih]
    · rcases hcn : c.to_node_id == n with _ | _ <;>
      · simp only [adjOf] at ih ⊢
        simp [List.filter_cons, hcu, List.countP_cons, ih, hcn]

/-- `inDegreeOf` as a `countP`. -/
theorem inDegreeOf_countP (conns : List Connection) (v : Int) :
    inDegreeOf conns v = (conns.countP (fun c => c.to_node_id == v) : Int) := by
  rw [inDegreeOf, List.countP_eq_length_filter]

theorem inCnt_nil (conns : List Connection) (v : Int) : inCnt conns [] v = 0 := by
  unfold inCnt
  induction conns with
  | nil => rfl
  | cons c rest ih => simp [List.countP_cons, ih]

/-- Appending a fresh element to the emitted list adds exactly the
connections from it. -/
theorem inCnt_snoc (conns : List Connection) (P : List Int) (v cur : Int)
    (hcur : cur ∉ P) :
    inCnt conns (P ++ [cur]) v =
      inCnt conns P v +
        conns.countP (fun c => c.to_node_id == v && c.from_node_id == cur) := by
  unfold inCnt
  have hcongr : ∀ c ∈ conns,
      (c.to_node_id == v && (P ++ [cur]).contains c.from_node_id) = true ↔
      ((c.to_node_id == v && P.contains c.from_node_id) ||
       (c.to_node_id == v && c.from_node_id == cur)) = true := by
    intro c _
    simp
    tauto
  rw [List.countP_congr hcongr]
  apply countP_or_disjoint
  intro c _ hboth
  obtain ⟨h1, h2⟩ := hboth
  simp at h1 h2
  exact hcur (h2.2 ▸ h1.2)

/-- After processing a neighbor list, each degree has dropped by the
number of occurrences in the list. -/
theorem processNeighbors_deg :
    ∀ (ns : List Int) (deg : Int → Int) (st : List Int) (v : Int),
      (processNeighbors ns deg st).1 v = deg v - (ns.countP (fun x => x == v) : Int) := by
  intro ns
  induction ns with
  | nil => intro deg st v; simp [processNeighbors]
  | cons n rest ih =>
    intro deg st v
    have hstep : processNeighbors (n :: rest) deg st =
        processNeighbors rest (fun w => if w = n then deg n - 1 else deg w)
          (if deg n - 1 = 0 then n :: st else st) := rfl
    rw [hstep, ih]
    by_cases hv : v = n
    · subst hv
      simp [List.countP_cons]
      omega
    · have hbeq : (n == v) = false := by
        simp
        exact fun h => hv h.symm
      simp [List.countP_cons, hv, hbeq]

/-- Everything on the stack after processing was on it before or is a
processed neighbor. -/
theorem processNeighbors_stack :
    ∀ (ns : List Int) (deg : Int → Int) (st : List Int) (x : Int),
      x ∈ (processNeighbors ns deg st).2 → x ∈ ns ∨ x ∈ st := by
  intro ns
  induction ns with
  | nil => intro deg st x hx; exact Or.inr hx
  | cons n rest ih =>
    intro deg st x hx
    have hstep : processNeighbors (n :: rest) deg st =
        processNeighbors rest (fun w => if w = n then deg n - 1 else deg w)
          (if deg n - 1 = 0 then n :: st else st) := rfl
    rw [hstep] at hx
    rcases ih _ _ x hx with h | h
    · exact Or.inl (List.mem_cons_of_mem _ h)
    · by_cases hd : deg n - 1 = 0
      · rw [if_pos hd] at h
        rcases List.mem_cons.mp h with h' | h'
        · exact Or.inl (h' ▸ List.mem_cons_self _ _)
        · exact Or.inr h'
      · rw [if_neg hd] at h
        exact Or.inr h

/-- The key degree bound: when the loop is about to decrement neighbor
`n` of the current node, the in-degree accounting shows `n`'s remaining
degree is at least 1 (so no stacked or emitted node is ever decremented
at degree 0 or below). -/
theorem deg_pos_at_process (conns : List Connection) (order : List Int) (cur n : Int)
    (hcur : cur ∉ order) (processed ns : List Int)
    (hsplit : adjOf conns cur = processed ++ n :: ns) :
    inCnt conns order n + processed.countP (fun x => x == n) + 1 ≤
      conns.countP (fun c => c.to_node_id == n) := by
  have hdisj : ∀ c ∈ conns,
      ¬((c.to_node_id == n && order.contains c.from_node_id) = true ∧
        (c.to_node_id == n && c.from_node_id == cur) = true) := by
    intro c _ ⟨h1, h2⟩
    simp at h1 h2
    exact hcur (h2.2 ▸ h1.2)
  have hsum := countP_or_disjoint _ _ conns hdisj
  have hle : conns.countP
      (fun c => (c.to_node_id == n && order.contains c.from_node_id) ||
        (c.to_node_id == n && c.from_node_id == cur)) ≤
      conns.countP (fun c => c.to_node_id == n) := by
    apply List.countP_mono_left
    intro c _ hc
    rcases Bool.or_eq_true _ _ |>.mp hc with h | h
    · exact (Bool.and_eq_true _ _ |>.mp h).1
    · exact (Bool.and_eq_true _ _ |>.mp h).1
  have hadj : processed.countP (fun x => x == n) + 1 ≤
      conns.countP (fun c => c.to_node_id == n && c.from_node_id == cur) := by
    have hcount : (adjOf conns cur).countP (fun x => x == n) =
        conns.countP (fun c => c.from_node_id == cur && c.to_node_id == n) :=
      adjOf_countP conns cur n
    rw [hsplit] at hcount
    rw [List.countP_append, List.countP_cons] at hcount
    have hcomm : conns.countP (fun c => c.from_node_id == cur && c.to_node_id == n) =
        conns.countP (fun c => c.to_node_id == n && c.from_node_id == cur) := by
      apply List.countP_congr
      intro c _
      simp
      tauto
    rw [hcomm] at hcount
    simp at hcount
    omega
  unfold inCnt
  omega

/-- Invariant preservation through one neighbor-processing pass of the
Kahn loop.  `order` is the emitted list before the current node `cur` was
popped; the pass resumes from the split `adjOf conns cur = processed ++ ns`. -/
theorem processNeighbors_inv (conns : List Connection) (keys : List Int)
    (hto : ∀ c ∈ conns, c.to_node_id ∈ keys)
    (cur : Int) (order : List Int) (hcur : cur ∉ order) :
    ∀ (ns processed : List Int) (deg : Int → Int) (st : List Int),
      adjOf conns cur = processed ++ ns →
      (∀ v, deg v = (conns.countP (fun c => c.to_node_id == v) : Int) -
        (inCnt conns order v : Int) - (processed.countP (fun x => x == v) : Int)) →
      ((order ++ [cur]) ++ st).Nodup →
      (∀ v ∈ st, deg v = 0) →
      (∀ v ∈ order ++ [cur], deg v ≤ 0) →
      (∀ v ∈ st, v ∈ keys) →
      ((∀ v, (processNeighbors ns deg st).1 v =
          (conns.countP (fun c => c.to_node_id == v) : Int) -
          (inCnt conns order v : Int) -
          ((processed ++ ns).countP (fun x => x == v) : Int)) ∧
       ((order ++ [cur]) ++ (processNeighbors ns deg st).2).Nodup ∧
       (∀ v ∈ (processNeighbors ns deg st).2, (processNeighbors ns deg st).1 v = 0) ∧
       (∀ v ∈ order ++ [cur], (processNeighbors ns deg st).1 v ≤ 0) ∧
       (∀ v ∈ (processNeighbors ns deg st).2, v ∈ keys)) := by
  intro ns
  induction ns with
  | nil =>
    intro processed deg st hsplit hdeg hnd hstz honp hstk
    exact ⟨by simpa using hdeg, hnd, hstz, honp, hstk⟩
  | cons n rest ih =>
    intro processed deg st hsplit hdeg hnd hstz honp hstk
    have hpos : 1 ≤ deg n := by
      have hb := deg_pos_at_process conns order cur n hcur processed rest hsplit
      have hd := hdeg n
      omega
    have hnn_st : n ∉ st := fun h => by have := hstz n h; omega
    have hnn_oc : n ∉ order ++ [cur] := fun h => by have := honp n h; omega
    have hstep : processNeighbors (n :: rest) deg st =
        processNeighbors rest (fun w => if w = n then deg n - 1 else deg w)
          (if deg n - 1 = 0 then n :: st else st) := rfl
    rw [hstep]
    have hsplit' : adjOf conns cur = (processed ++ [n]) ++ rest := by
      rw [hsplit, List.append_assoc]
      rfl
    have hdegP : ∀ v, (fun w => if w = n then deg n - 1 else deg w) v =
        (conns.countP (fun c => c.to_node_id == v) : Int) -
        (inCnt conns order v : Int) -
        ((processed ++ [n]).countP (fun x => x == v) : Int) := by
      intro v
      rw [List.countP_append]
      by_cases hv : v = n
      · subst hv
        have hd := hdeg v
        simp only [if_pos rfl]
        simp [List.countP_cons]
        omega
      · have hbeq : (n == v) = false := by
          simp
          exact fun h => hv h.symm
        have hd := hdeg v
        simp only [if_neg hv]
        simp [List.countP_cons, hbeq]
        omega
    have hn_keys : n ∈ keys := by
      have hnadj : n ∈ adjOf conns cur := by
        rw [hsplit]
        exact List.mem_append_right _ (List.mem_cons_self _ _)
      obtain ⟨c, hc, hcn⟩ := List.mem_map.mp hnadj
      exact hcn ▸ hto c (List.mem_of_mem_filter hc)
    by_cases hd0 : deg n - 1 = 0
    · have hst'eq : (if deg n - 1 = 0 then n :: st else st) = n :: st := if_pos hd0
      rw [hst'eq]
      have hn_not : n ∉ (order ++ [cur]) ++ st := by
        intro h
        rcases List.mem_append.mp h with h' | h'
        · exact hnn_oc h'
        · exact hnn_st h'
      have hnd' : ((order ++ [cur]) ++ n :: st).Nodup := by
        have hcons : (n :: ((order ++ [cur]) ++ st)).Nodup :=
          List.nodup_cons.mpr ⟨hn_not, hnd⟩
        exact List.perm_middle.nodup_iff.mpr hcons
      have hstz' : ∀ v ∈ n :: st, (fun w => if w = n then deg n - 1 else deg w) v = 0 := by
        intro v hv
        rcases List.mem_cons.mp hv with rfl | hv'
        · simpa using hd0
        · have hvne : v ≠ n := fun h => hnn_st (h ▸ hv')
          simpa [hvne] using hstz v hv'
      have honp' : ∀ v ∈ order ++ [cur],
          (fun w => if w = n then deg n - 1 else deg w) v ≤ 0 := by
        intro v hv
        have hvne : v ≠ n := fun h => hnn_oc (h ▸ hv)
        simpa [hvne] using honp v hv
      have hstk' : ∀ v ∈ n :: st, v ∈ keys := by
        intro v hv
        rcases List.mem_cons.mp hv with rfl | hv'
        · exact hn_keys
        · exact hstk v hv'
      have hres := ih (processed ++ [n]) _ _ hsplit' hdegP hnd' hstz' honp' hstk'
      have hlist : (processed ++ [n]) ++ rest = processed ++ n :: rest := by simp
      rw [hlist] at hres
      exact hres
    · have hst'eq : (if deg n - 1 = 0 then n :: st else st) = st := if_neg hd0
      rw [hst'eq]
      have hstz' : ∀ v ∈ st, (fun w => if w = n then deg n - 1 else deg w) v = 0 := by
        intro v hv
        have hvne : v ≠ n := fun h => hnn_st (h ▸ hv)
        simpa [hvne] using hstz v hv
      have honp' : ∀ v ∈ order ++ [cur],
          (fun w => if w = n then deg n - 1 else deg w) v ≤ 0 := by
        intro v hv
        have hvne : v ≠ n := fun h => hnn_oc (h ▸ hv)
        simpa [hvne] using honp v hv
      have hres := ih (processed ++ [n]) _ _ hsplit' hdegP hnd hstz' honp' hstk
      have hlist : (processed ++ [n]) ++ rest = processed ++ n :: rest := by simp
      rw [hlist] at hres
      exact hres

/-- If the count of `q ∧ r` equals the count of `q`, every element
satisfying `q` also satisfies `r`. -/
theorem countP_and_full {α : Type} (q r : α → Bool) :
    ∀ (l : List α), l.countP (fun a => q a && r a) = l.countP q →
      ∀ a ∈ l, q a = true → r a = true := by
  intro l
  induction l with
  | nil => intro _ a ha; cases ha
  | cons a rest ih =>
    intro heq b hb hqb
    have hmono : rest.countP (fun x => q x && r x) ≤ rest.countP q :=
      List.countP_mono_left (fun x _ hx => (Bool.and_eq_true _ _ |>.mp hx).1)
    rw [List.countP_cons, List.countP_cons] at heq
    rcases List.mem_cons.mp hb with rfl | hb'
    · rcases hr : r b with _ | _
      · simp [hqb, hr] at heq
        omega
      · rfl
    · have hrest_eq : rest.countP (fun x => q x && r x) = rest.countP q := by
        rcases hqa : q a with _ | _ <;> rcases hra : r a with _ | _ <;>
          simp [hqa, hra] at heq <;> omega
      exact ih hrest_eq b hb' hqb

/-- Main invariant of the Kahn while-loop: at every exit the emitted
order is duplicate-free, stays within the in-degree key set, and respects
every connection whose target it contains; with enough fuel the stack is
empty at exit. -/
theorem kahnLoop_inv (conns : List Connection) (keys : List Int)
    (hto : ∀ c ∈ conns, c.to_node_id ∈ keys) :
    ∀ (fuel : Nat) (deg : Int → Int) (st order : List Int),
      (∀ v, deg v = (conns.countP (fun c => c.to_node_id == v) : Int) -
        (inCnt conns order v : Int)) →
      (order ++ st).Nodup →
      (∀ v ∈ st, deg v = 0) →
      (∀ v ∈ order, deg v ≤ 0) →
      (∀ v ∈ st, v ∈ keys) →
      (∀ v ∈ order, v ∈ keys) →
      (∀ c ∈ conns, c.to_node_id ∈ order →
        c.from_node_id ∈ order ∧
          order.indexOf c.from_node_id < order.indexOf c.to_node_id) →
      ((kahnLoop (adjOf conns) fuel deg st order).1.Nodup ∧
       (∀ v ∈ (kahnLoop (adjOf conns) fuel deg st order).1, v ∈ keys) ∧
       (∀ c ∈ conns,
         c.to_node_id ∈ (kahnLoop (adjOf conns) fuel deg st order).1 →
         c.from_node_id ∈ (kahnLoop (adjOf conns) fuel deg st order).1 ∧
           (kahnLoop (adjOf conns) fuel deg st order).1.indexOf c.from_node_id <
             (kahnLoop (adjOf conns) fuel deg st order).1.indexOf c.to_node_id) ∧
       (keys.length < fuel + order.length →
         (kahnLoop (adjOf conns) fuel deg st order).2 = [])) := by
  intro fuel
  induction fuel with
  | zero =>
    intro deg st order _ hnd _ _ _ hok hedge
    have hordnd : order.Nodup := (List.nodup_append.mp hnd).1
    refine ⟨hordnd, hok, hedge, ?_⟩
    intro hlen
    have hsub : order ⊆ keys := fun x hx => hok x hx
    have hle := (hordnd.subperm hsub).length_le
    omega
  | succ f ih =>
    intro deg st order hdeg hnd hstz honp hstk hok hedge
    cases st with
    | nil =>
      exact ⟨(by simpa using hnd), hok, hedge, fun _ => rfl⟩
    | cons cur rest =>
      have hcur_deg : deg cur = 0 := hstz cur (List.mem_cons_self _ _)
      have hcur_keys : cur ∈ keys := hstk cur (List.mem_cons_self _ _)
      have hcur_not : cur ∉ order := by
        intro h
        exact (List.nodup_append.mp hnd).2.2 h (List.mem_cons_self _ _)
      have hallin : ∀ c ∈ conns, c.to_node_id = cur → c.from_node_id ∈ order := by
        have hd := hdeg cur
        rw [hcur_deg] at hd
        have hnat : inCnt conns order cur =
            conns.countP (fun c => c.to_node_id == cur) := by omega
        intro c hc hceq
        have hfull := countP_and_full
          (fun c : Connection => c.to_node_id == cur)
          (fun c : Connection => order.contains c.from_node_id) conns
          (by simpa [inCnt] using hnat) c hc (by simp [hceq])
        simpa using hfull
      have hnd' : ((order ++ [cur]) ++ rest).Nodup := by
        rw [List.append_assoc]
        exact hnd
      have hdeg0 : ∀ v, deg v =
          (conns.countP (fun c => c.to_node_id == v) : Int) -
          (inCnt conns order v : Int) -
          (([] : List Int).countP (fun x => x == v) : Int) := by
        intro v
        simpa using hdeg v
      have hstz' : ∀ v ∈ rest, deg v = 0 :=
        fun v hv => hstz v (List.mem_cons_of_mem _ hv)
      have honp' : ∀ v ∈ order ++ [cur], deg v ≤ 0 := by
        intro v hv
        rcases List.mem_append.mp hv with h | h
        · exact honp v h
        · rw [List.mem_singleton.mp h, hcur_deg]
      have hstk' : ∀ v ∈ rest, v ∈ keys :=
        fun v hv => hstk v (List.mem_cons_of_mem _ hv)
      obtain ⟨pdeg, pnd, pstz, ponp, pstk⟩ :=
        processNeighbors_inv conns keys hto cur order hcur_not (adjOf conns cur) []
          deg rest rfl hdeg0 hnd' hstz' honp' hstk'
      have hdeg'' : ∀ v, (processNeighbors (adjOf conns cur) deg rest).1 v =
          (conns.countP (fun c => c.to_node_id == v) : Int) -
          (inCnt conns (order ++ [cur]) v : Int) := by
        intro v
        have hp := pdeg v
        simp only [List.nil_append] at hp
        rw [hp]
        have hsn := inCnt_snoc conns order v cur hcur_not
        have hadjc : (adjOf conns cur).countP (fun x => x == v) =
            conns.countP (fun c => c.to_node_id == v && c.from_node_id == cur) := by
          rw [adjOf_countP]
          apply List.countP_congr
          intro c _
          simp
          tauto
        rw [hsn, hadjc]
        push_cast
        ring
      have hok' : ∀ v ∈ order ++ [cur], v ∈ keys := by
        intro v hv
        rcases List.mem_append.mp hv with h | h
        · exact hok v h
        · rw [List.mem_singleton.mp h]
          exact hcur_keys
      have hedge' : ∀ c ∈ conns, c.to_node_id ∈ order ++ [cur] →
          c.from_node_id ∈ order ++ [cur] ∧
            (order ++ [cur]).indexOf c.from_node_id <
              (order ++ [cur]).indexOf c.to_node_id := by
        intro c hc hto_in
        rcases List.mem_append.mp hto_in with hin | hin
        · obtain ⟨hf, hidx⟩ := hedge c hc hin
          refine ⟨List.mem_append_left _ hf, ?_⟩
          rw [List.indexOf_append_of_mem hf, List.indexOf_append_of_mem hin]
          exact hidx
        · have hceq : c.to_node_id = cur := List.mem_singleton.mp hin
          have hf : c.from_node_id ∈ order := hallin c hc hceq
          refine ⟨List.mem_append_left _ hf, ?_⟩
          rw [List.indexOf_append_of_mem hf, hceq,
            List.indexOf_append_of_not_mem hcur_not, List.indexOf_cons_self]
          have := List.indexOf_lt_length.mpr hf
          omega
      have hstepeq : kahnLoop (adjOf conns) (f + 1) deg (cur :: rest) order =
          kahnLoop (adjOf conns) f (processNeighbors (adjOf conns cur) deg rest).1
            (processNeighbors (adjOf conns cur) deg rest).2 (order ++ [cur]) := rfl
      rw [hstepeq]
      obtain ⟨a, b, c, d⟩ := ih (processNeighbors (adjOf conns cur) deg rest).1
        (processNeighbors (adjOf conns cur) deg rest).2 (order ++ [cur])
        hdeg'' pnd pstz ponp pstk hok' hedge'
      refine ⟨a, b, c, ?_⟩
      intro hlen
      apply d
      simp only [List.length_append, List.length_singleton]
      omega

/-- Inserting a key already present in a sorted key list is a no-op
(`std::map` behaviour). -/
theorem iInsert_of_mem :
    ∀ (l : List Int), l.Pairwise (· < ·) → ∀ k, k ∈ l → iInsert l k = l := by
  intro l
  induction l with
  | nil => intro _ k hk; cases hk
  | cons x xs ih =>
    intro hp k hk
    rcases List.mem_cons.mp hk with rfl | hk'
    · simp [iInsert]
    · have hlt : x < k := (List.pairwise_cons.mp hp).1 k hk'
      have h1 : ¬ k < x := by omega
      have h2 : ¬ k = x := by omega
      simp [iInsert, h1, h2, ih (List.pairwise_cons.mp hp).2 k hk']

/-- When every connection target is already a node key, the `in_degree`
key set is exactly the node key set. -/
theorem buildKeys_eq (nodeKeys : List Int) (hsort : nodeKeys.Pairwise (· < ·)) :
    ∀ conns : List Connection, (∀ c ∈ conns, c.to_node_id ∈ nodeKeys) →
      buildKeys nodeKeys conns = nodeKeys := by
  intro conns
  induction conns with
  | nil => intro _; rfl
  | cons c rest ih =>
    intro h
    show (c :: rest).foldl (fun ks c => iInsert ks c.to_node_id) nodeKeys = nodeKeys
    rw [List.foldl_cons, iInsert_of_mem nodeKeys hsort _ (h c (List.mem_cons_self _ _))]
    exact ih (fun x hx => h x (List.mem_cons_of_mem _ hx))

theorem mem_iInsert : ∀ (l : List Int) (k b : Int), b ∈ iInsert l k ↔ b = k ∨ b ∈ l := by
  intro l
  induction l with
  | nil => intro k b; simp [iInsert]
  | cons x xs ih =>
    intro k b
    by_cases h1 : k < x
    · simp [iInsert, h1]
    · by_cases h2 : k = x
      · subst h2
        simp [iInsert, h1]
      · simp [iInsert, h1, h2, ih]
        tauto

theorem iInsert_sorted :
    ∀ (l : List Int), l.Pairwise (· < ·) → ∀ k, (iInsert l k).Pairwise (· < ·) := by
  intro l
  induction l with
  | nil => intro _ k; simp [iInsert]
  | cons x xs ih =>
    intro hp k
    obtain ⟨hx, hxs⟩ := List.pairwise_cons.mp hp
    by_cases h1 : k < x
    · rw [show iInsert (x :: xs) k = k :: x :: xs from by simp [iInsert, h1]]
      refine List.pairwise_cons.mpr ⟨?_, hp⟩
      intro b hb
      rcases List.mem_cons.mp hb with rfl | hb'
      · exact h1
      · exact lt_trans h1 (hx b hb')
    · by_cases h2 : k = x
      · rw [show iInsert (x :: xs) k = x :: xs from by subst h2; simp [iInsert, h1]]
        exact hp
      · rw [show iInsert (x :: xs) k = x :: iInsert xs k from by simp [iInsert, h1, h2]]
        refine List.pairwise_cons.mpr ⟨?_, ih hxs k⟩
        intro b hb
        rcases (mem_iInsert xs k b).mp hb with rfl | hb'
        · omega
        · exact hx b hb'

theorem buildKeys_sorted (conns : List Connection) :
    ∀ (nodeKeys : List Int), nodeKeys.Pairwise (· < ·) →
      (buildKeys nodeKeys conns).Pairwise (· < ·) := by
  induction conns with
  | nil => intro nodeKeys h; exact h
  | cons c rest ih =>
    intro nodeKeys h
    exact ih (iInsert nodeKeys c.to_node_id) (iInsert_sorted nodeKeys h c.to_node_id)

theorem buildKeys_mem_mono (conns : List Connection) :
    ∀ (ks : List Int) (x : Int), x ∈ ks → x ∈ buildKeys ks conns := by
  induction conns with
  | nil => intro ks x h; exact h
  | cons c rest ih =>
    intro ks x h
    exact ih (iInsert ks c.to_node_id) x ((mem_iInsert ks c.to_node_id x).mpr (Or.inr h))

theorem buildKeys_to_mem :
    ∀ (conns : List Connection) (nodeKeys : List Int) (c : Connection), c ∈ conns →
      c.to_node_id ∈ buildKeys nodeKeys conns := by
  intro conns
  induction conns with
  | nil => intro _ c hc; cases hc
  | cons c0 rest ih =>
    intro nodeKeys c hc
    rcases List.mem_cons.mp hc with rfl | hc'
    · exact buildKeys_mem_mono rest _ _
        ((mem_iInsert nodeKeys c.to_node_id c.to_node_id).mpr (Or.inl rfl))
    · exact ih _ c hc'

/-- The fuel `kahnSort` hands to `kahnLoop` is always sufficient: the
embedded loop exits by emptying its queue, exactly like the C++ while
loop, so the fuel encoding never changes the computed result. -/
theorem kahnSort_fuel_sufficient (nodeKeys : List Int) (conns : List Connection)
    (hsort : nodeKeys.Pairwise (· < ·)) :
    (kahnLoop (adjOf conns) ((buildKeys nodeKeys conns).length + 1) (inDegreeOf conns)
      (((buildKeys nodeKeys conns).filter (fun k => inDegreeOf conns k == 0)).reverse)
      []).2 = [] := by
  have hknd : (buildKeys nodeKeys conns).Nodup :=
    (buildKeys_sorted conns nodeKeys hsort).imp (fun h => ne_of_lt h)
  obtain ⟨_, _, _, d⟩ :=
    kahnLoop_inv conns (buildKeys nodeKeys conns)
      (fun c hc => buildKeys_to_mem conns nodeKeys c hc)
      ((buildKeys nodeKeys conns).length + 1) (inDegreeOf conns)
      (((buildKeys nodeKeys conns).filter (fun k => inDegreeOf conns k == 0)).reverse) []
      (by
        intro v
        rw [inDegreeOf_countP, inCnt_nil]
        simp)
      (by simpa using List.nodup_reverse.mpr (hknd.filter _))
      (by
        intro v hv
        have hvf := List.mem_reverse.mp hv
        have := (List.mem_filter.mp hvf).2
        simpa using this)
      (by intro v hv; cases hv)
      (by
        intro v hv
        exact List.mem_of_mem_filter (List.mem_reverse.mp hv))
      (by intro v hv; cases hv)
      (by intro c hc hin; cases hin)
  exact d (by simp)

/-- C1 (corrected): for every execution graph whose build succeeded,
PROVIDED every connection endpoint is among the built nodes (no
connection references a skipped node - see the counterexample for why
this proviso is needed), the computed execution order contains every
built node exactly once, and for every connection (u→v) the position of u
in the order is strictly smaller than the position of v. -/
theorem claim_C1 (nodes : List (Int × ExecutionNode)) (conns : List Connection)
    (hsorted : (nodes.map Prod.fst).Pairwise (· < ·))
    (hends : ∀ c ∈ conns, c.from_node_id ∈ nodes.map Prod.fst ∧
      c.to_node_id ∈ nodes.map Prod.fst)
    (hok : (buildExecutionOrder nodes conns).2 = true) :
    (∀ k ∈ nodes.map Prod.fst, k ∈ (buildExecutionOrder nodes conns).1) ∧
    (buildExecutionOrder nodes conns).1.Nodup ∧
    (∀ c ∈ conns,
      (buildExecutionOrder nodes conns).1.indexOf c.from_node_id <
        (buildExecutionOrder nodes conns).1.indexOf c.to_node_id) := by
  have hkeys_eq : buildKeys (nodes.map Prod.fst) conns = nodes.map Prod.fst :=
    buildKeys_eq (nodes.map Prod.fst) hsorted conns (fun c hc => (hends c hc).2)
  have hred1 : (buildExecutionOrder nodes conns).1 =
      (kahnLoop (adjOf conns) ((buildKeys (nodes.map Prod.fst) conns).length + 1)
        (inDegreeOf conns)
        (((buildKeys (nodes.map Prod.fst) conns).filter
          (fun k => inDegreeOf conns k == 0)).reverse) []).1 := rfl
  have hred2 : (buildExecutionOrder nodes conns).2 =
      ((kahnLoop (adjOf conns) ((buildKeys (nodes.map Prod.fst) conns).length + 1)
        (inDegreeOf conns)
        (((buildKeys (nodes.map Prod.fst) conns).filter
          (fun k => inDegreeOf conns k == 0)).reverse) []).1.length ==
        (nodes.map Prod.fst).length) := rfl
  rw [hred2, hkeys_eq] at hok
  rw [hred1, hkeys_eq]
  have hknd : (nodes.map Prod.fst).Nodup := hsorted.imp (fun h => ne_of_lt h)
  have hst0nd : (((nodes.map Prod.fst).filter
      (fun k => inDegreeOf conns k == 0)).reverse).Nodup :=
    List.nodup_reverse.mpr (hknd.filter _)
  obtain ⟨Lnd, Lkeys, Ledge, _⟩ :=
    kahnLoop_inv conns (nodes.map Prod.fst) (fun c hc => (hends c hc).2)
      ((nodes.map Prod.fst).length + 1) (inDegreeOf conns)
      (((nodes.map Prod.fst).filter (fun k => inDegreeOf conns k == 0)).reverse) []
      (by
        intro v
        rw [inDegreeOf_countP, inCnt_nil]
        simp)
      (by simpa using hst0nd)
      (by
        intro v hv
        have hvf := List.mem_reverse.mp hv
        have := (List.mem_filter.mp hvf).2
        simpa using this)
      (by intro v hv; cases hv)
      (by
        intro v hv
        exact List.mem_of_mem_filter (List.mem_reverse.mp hv))
      (by intro v hv; cases hv)
      (by intro c hc hin; cases hin)
  have hlen : (kahnLoop (adjOf conns) ((nodes.map Prod.fst).length + 1)
      (inDegreeOf conns)
      (((nodes.map Prod.fst).filter (fun k => inDegreeOf conns k == 0)).reverse)
      []).1.length = (nodes.map Prod.fst).length := by
    simpa using hok
  have hperm := (Lnd.subperm (fun x hx => Lkeys x hx)).perm_of_length_le (by omega)
  refine ⟨?_, Lnd, ?_⟩
  · intro k hk
    exact hperm.mem_iff.mpr hk
  · intro c hc
    exact (Ledge c hc (hperm.mem_iff.mpr (hends c hc).2)).2

theorem claim_C1_witness :
    ([(1, plainNode 1), (2, plainNode 2)].map Prod.fst).Pairwise (· < ·) ∧
    (∀ c ∈ [(⟨1, "o", 2, "i"⟩ : Connection)],
      c.from_node_id ∈ [(1, plainNode 1), (2, plainNode 2)].map Prod.fst ∧
      c.to_node_id ∈ [(1, plainNode 1), (2, plainNode 2)].map Prod.fst) ∧
    (buildExecutionOrder [(1, plainNode 1), (2, plainNode 2)]
      [⟨1, "o", 2, "i"⟩]).2 = true ∧
    ((∀ k ∈ [(1, plainNode 1), (2, plainNode 2)].map Prod.fst,
        k ∈ (buildExecutionOrder [(1, plainNode 1), (2, plainNode 2)]
          [⟨1, "o", 2, "i"⟩]).1) ∧
     (buildExecutionOrder [(1, plainNode 1), (2, plainNode 2)]
       [⟨1, "o", 2, "i"⟩]).1.Nodup ∧
     (∀ c ∈ [(⟨1, "o", 2, "i"⟩ : Connection)],
       (buildExecutionOrder [(1, plainNode 1), (2, plainNode 2)]
         [⟨1, "o", 2, "i"⟩]).1.indexOf c.from_node_id <
         (buildExecutionOrder [(1, plainNode 1), (2, plainNode 2)]
           [⟨1, "o", 2, "i"⟩]).1.indexOf c.to_node_id)) :=
  ⟨by decide, by decide, by decide,
   claim_C1 [(1, plainNode 1), (2, plainNode 2)] [⟨1, "o", 2, "i"⟩]
     (by decide) (by decide) (by decide)⟩

end CiraBlockRuntime
